import Mathlib

/-!
Verification of the range-compressed Unicode property tables of
`parse_ucd.py` (and the numeric accessor of `codepoint.py`).

The Python code is shallowly embedded: Python `int` codepoints become `Int`,
Python lists become `List`, exceptions become `Option`/`Except` failures, and
the mutable last-served-record cache of `PropertyLookup` becomes explicit
state passing (queries return the value together with the updated lookup).
-/

namespace ParseUcd

/-- The `CODE_POINT_MIN` from parse_ucd.py. -/
def CODE_POINT_MIN : Int := 0

/-- The `CODE_POINT_MAX` from parse_ucd.py. -/
def CODE_POINT_MAX : Int := 0x10FFFF

/-- The `CodepointRange`: an inclusive range of codepoints (parse_ucd.py). -/
structure CodepointRange where
  start : Int
  end_inclusive : Int
deriving DecidableEq, Repr

/-- The `CodepointRange.is_single_code_point`. -/
def CodepointRange.is_single_code_point (r : CodepointRange) : Bool :=
  r.start == r.end_inclusive

/-- The `CodepointRange.is_range`. -/
def CodepointRange.is_range (r : CodepointRange) : Bool :=
  r.start != r.end_inclusive

/-- The `CodepointRange.contains`: `self.start <= codepoint <= self.end_inclusive`. -/
def CodepointRange.contains (r : CodepointRange) (codepoint : Int) : Bool :=
  decide (r.start ≤ codepoint) && decide (codepoint ≤ r.end_inclusive)

/-- The `PropertyRecord`: an entry in the `PropertyLookup` table (parse_ucd.py). -/
structure PropertyRecord (α : Type) where
  start : Int
  end_inclusive : Int
  value : α
deriving DecidableEq, Repr

/-- The `PropertyRecord.contains` (shared with `CodepointRange.contains`). -/
def PropertyRecord.contains {α : Type} (r : PropertyRecord α) (codepoint : Int) : Bool :=
  decide (r.start ≤ codepoint) && decide (codepoint ≤ r.end_inclusive)

/-- The `PropertyRecord.directly_before`: `self.end_inclusive + 1 == codepoint`. -/
def PropertyRecord.directly_before {α : Type} (r : PropertyRecord α) (codepoint : Int) : Bool :=
  r.end_inclusive + 1 == codepoint

/-- The `PropertyRecord.from_range`. -/
def PropertyRecord.from_range {α : Type} (r : CodepointRange) (value : α) : PropertyRecord α :=
  ⟨r.start, r.end_inclusive, value⟩

/--
The `PropertyLookup`: the sparse property table of parse_ucd.py.

`_previous` bundles the Python fields `_previous_record` and `_previous_index`,
which are always read and written together; the initial
`InvalidPropertyRecord()` / `None` state (for which both `contains` and
`directly_before` are `False`) is `none`.
-/
structure PropertyLookup (α : Type) where
  _table : List (PropertyRecord α)
  _default : α
  _previous : Option (PropertyRecord α × Nat)

/-- The `PropertyLookup.__init__(*, default)`: empty table, invalid cache. -/
def PropertyLookup.init {α : Type} (default : α) : PropertyLookup α :=
  ⟨[], default, none⟩

/--
The `PropertyLookup.extend_last`.  The Python `assert code_point_range.start >
last_end` raises `AssertionError` (the spec's OrderingViolation) on violation;
that failure is `none`.  On an empty table the `IndexError` branch appends
unconditionally.
-/
def PropertyLookup.extend_last {α : Type} [DecidableEq α] (pl : PropertyLookup α)
    (code_point_range : CodepointRange) (value : α) : Option (PropertyLookup α) :=
  match pl._table.getLast? with
  | none =>
      some { pl with _table := pl._table ++ [PropertyRecord.from_range code_point_range value] }
  | some last =>
      if code_point_range.start > last.end_inclusive then
        if code_point_range.start = last.end_inclusive + 1 ∧ value = last.value then
          -- We can extend the previous range: `self._table[-1] = PropertyRecord(...)`.
          some { pl with
            _table := pl._table.dropLast ++ [⟨last.start, code_point_range.end_inclusive, value⟩] }
        else
          some { pl with _table := pl._table ++ [PropertyRecord.from_range code_point_range value] }
      else
        none

/-- Result of the inner recursive `binary_search` of `_find_with_binary_search`:
either a stored record with its index, or the failure index (the index of the
next stored entry), which the caller turns into a fake record. -/
inductive BSResult (α : Type) where
  | found (record : PropertyRecord α) (index : Nat)
  | notFound (index : Nat)
deriving DecidableEq

/--
The recursive `binary_search(start, end)` closure of
`PropertyLookup._find_with_binary_search`.  `none` models the crash of an
out-of-bounds `table[midpoint]` access (unreachable when `e ≤ table.length`).
The final `else none` branch is Python's implicit `return None` (unreachable,
since `contains` is exactly `start ≤ cp ≤ end`).
-/
def binary_search {α : Type} (table : List (PropertyRecord α)) (codepoint : Int)
    (s e : Nat) : Option (BSResult α) :=
  if s ≥ e then
    -- Could not find a record!
    some (.notFound s)
  else
    let midpoint := s + (e - s) / 2
    match table[midpoint]? with
    | none => none
    | some record =>
      if record.contains codepoint then some (.found record midpoint)
      else if codepoint < record.start then binary_search table codepoint s midpoint
      else if codepoint > record.end_inclusive then binary_search table codepoint (midpoint + 1) e
      else none
termination_by e - s
decreasing_by
  · have : (e - s) / 2 < e - s := Nat.div_lt_self (by omega) (by omega)
    omega
  · have : (e - s) / 2 < e - s := Nat.div_lt_self (by omega) (by omega)
    omega

/--
The `PropertyLookup._create_fake_record(codepoint, index)`: synthesize the
not-stored gap record between the stored neighbours of a failed binary
search.  `none` models the `assert fake_start <= codepoint <= fake_end`
failure and the (unreachable) out-of-bounds `self._table[index - 1]` access.
-/
def PropertyLookup._create_fake_record {α : Type} (pl : PropertyLookup α)
    (codepoint : Int) (index : Nat) : Option (PropertyRecord α × Nat) :=
  let fakeStart? : Option Int :=
    if index > 0 then
      -- The fake entry must start after the PREVIOUS stored entry.
      (pl._table[index - 1]?).map (fun r => r.end_inclusive + 1)
    else
      some CODE_POINT_MIN
  match fakeStart? with
  | none => none
  | some fake_start =>
    let fake_end : Int :=
      match pl._table[index]? with
      -- The fake entry must end before the CURRENT stored entry.
      | some r => r.start - 1
      | none => CODE_POINT_MAX
    if fake_start ≤ codepoint ∧ codepoint ≤ fake_end then
      some (⟨fake_start, fake_end, pl._default⟩, index)
    else
      none

/-- The `PropertyLookup._find_with_binary_search`: run `binary_search(0, len(table))`
and synthesize a fake record on failure. -/
def PropertyLookup._find_with_binary_search {α : Type} (pl : PropertyLookup α)
    (codepoint : Int) : Option (PropertyRecord α × Nat) :=
  match binary_search pl._table codepoint 0 pl._table.length with
  | none => none
  | some (.found record index) => some (record, index)
  | some (.notFound index) => pl._create_fake_record codepoint index

/-- The tail of `PropertyLookup._find`: "Not a simple sequential access, so we
have to search", caching the (possibly fake) record that was found. -/
def PropertyLookup._search_and_cache {α : Type} (pl : PropertyLookup α)
    (codepoint : Int) : Option (α × PropertyLookup α) :=
  match pl._find_with_binary_search codepoint with
  | none => none
  | some (record, index) =>
      some (record.value, { pl with _previous := some (record, index) })

/-- The `PropertyLookup._find`: cached fast paths, then binary search. -/
def PropertyLookup._find {α : Type} (pl : PropertyLookup α) (codepoint : Int) :
    Option (α × PropertyLookup α) :=
  match pl._previous with
  | some (record, index) =>
      if record.contains codepoint then
        -- Sequential access AND we're in the same range!
        some (record.value, pl)
      else if record.directly_before codepoint then
        -- Sequential access! We just want the NEXT range, if it exists.
        match pl._table[index + 1]? with
        | some next =>
            if next.contains codepoint then
              -- The next range EXISTS, so cache it!
              some (next.value, { pl with _previous := some (next, index + 1) })
            else
              pl._search_and_cache codepoint
        | none =>
            -- After the end of stored records; fall through to the search.
            pl._search_and_cache codepoint
      else
        pl._search_and_cache codepoint
  | none =>
      pl._search_and_cache codepoint

/-- Failures of `PropertyLookup.__getitem__`: the explicit `IndexError` for an
out-of-range codepoint, or an internal crash (failed assert / unexpected
`IndexError`/`TypeError` on the search path). -/
inductive LookupError where
  | outOfRange
  | internalFailure
deriving DecidableEq, Repr

/-- The `PropertyLookup.__getitem__`. -/
def PropertyLookup.getitem {α : Type} (pl : PropertyLookup α) (codepoint : Int) :
    Except LookupError (α × PropertyLookup α) :=
  if codepoint < CODE_POINT_MIN ∨ codepoint > CODE_POINT_MAX then
    .error .outOfRange
  else
    match pl._find codepoint with
    | none => .error .internalFailure
    | some result => .ok result

/-! ## String utilities

Python string operations used by parse_ucd.py, modelled on `List Char`.
-/

/-- The whitespace characters stripped by Python `str.strip()` (restricted to
the ASCII whitespace that can occur in UCD files). -/
def pySpace (c : Char) : Bool :=
  c = ' ' || c = '\t' || c = '\n' || c = '\r' || c = '\x0b' || c = '\x0c'

/-- The `line.rstrip("\n")`: drop every trailing newline character. -/
def pyRstripNewlines (s : List Char) : List Char :=
  (s.reverse.dropWhile (fun c => c = '\n')).reverse

/-- The `s.strip()`: drop leading and trailing whitespace. -/
def pyStrip (s : List Char) : List Char :=
  ((s.dropWhile pySpace).reverse.dropWhile pySpace).reverse

/-- Locate the first occurrence of (non-empty) `sep` in `s`; return the parts
before and after it. -/
def findSub (sep : List Char) : List Char → Option (List Char × List Char)
  | [] => none
  | c :: rest =>
      if sep.isPrefixOf (c :: rest) then some ([], (c :: rest).drop sep.length)
      else
        match findSub sep rest with
        | some (pre, post) => some (c :: pre, post)
        | none => none

/-- The `s.partition(sep)`: `(before, found, after)`; when `sep` does not occur the
result is `(s, False, "")` (Python returns the separator or `""`, used only
for truthiness). -/
def pyPartition (s : List Char) (sep : List Char) : List Char × Bool × List Char :=
  match findSub sep s with
  | some (pre, post) => (pre, true, post)
  | none => (s, false, [])

/-- The `s.split(sep)` for a single-character separator. -/
def pySplitChar (sep : Char) : List Char → List (List Char)
  | [] => [[]]
  | c :: rest =>
      if c = sep then [] :: pySplitChar sep rest
      else
        match pySplitChar sep rest with
        | chunk :: chunks => (c :: chunk) :: chunks
        | [] => [[c]]

/-- Value of a decimal digit character. -/
def decDigitVal (c : Char) : Option Nat :=
  if ('0' ≤ c ∧ c ≤ '9') then some (c.toNat - Char.toNat '0') else none

/-- Value of a (case-insensitive) hexadecimal digit character. -/
def hexDigitVal (c : Char) : Option Nat :=
  if ('0' ≤ c ∧ c ≤ '9') then some (c.toNat - Char.toNat '0')
  else if ('a' ≤ c ∧ c ≤ 'f') then some (c.toNat - Char.toNat 'a' + 10)
  else if ('A' ≤ c ∧ c ≤ 'F') then some (c.toNat - Char.toNat 'A' + 10)
  else none

/-- Fold a non-empty digit string in base `base` with per-digit values
`dv`. -/
def digitsToNat (dv : Char → Option Nat) (base : Nat) : List Char → Option Nat
  | [] => none
  | cs => cs.foldlM (fun acc c => (dv c).map (fun d => acc * base + d)) 0

/-- Python `int(s)` (base 10), on the plain-literal subset occurring in UCD
fields: an optional sign followed by at least one decimal digit.  `none`
models the `ValueError` raised on anything else. -/
def pyInt (s : List Char) : Option Int :=
  match s with
  | '-' :: rest => (digitsToNat decDigitVal 10 rest).map (fun n => -(n : Int))
  | '+' :: rest => (digitsToNat decDigitVal 10 rest).map (fun n => (n : Int))
  | _ => (digitsToNat decDigitVal 10 s).map (fun n => (n : Int))

/-- Python `int(s, base=16)` on the plain hexadecimal-literal subset occurring
in UCD range expressions. -/
def pyIntHex (s : List Char) : Option Int :=
  (digitsToNat hexDigitVal 16 s).map (fun n => (n : Int))

/-! ## Line parsing -/

/-- Result of `parse_line`: Python `None` (blank or comment-only line), or a
parsed `(CodepointRange, fields)` pair. -/
inductive ParsedLine where
  | nothing
  | record (code_point_range : CodepointRange) (fields : List (List Char))
deriving DecidableEq

/--
The `parse_line` from parse_ucd.py.  The outer `none` models a crash: the
`assert len(fields) >= 2` (MalformedLine) or a `ValueError` from hex parsing.
-/
def parse_line (line : List Char) : Option ParsedLine :=
  let l := pyRstripNewlines line
  let content := (pyPartition l [('#')]).1
  if content = [] then
    some .nothing
  else
    let fields := (pySplitChar (';') content).map pyStrip
    match fields with
    | f0 :: _ :: _ =>
        let (start_hex, range_marker, end_hex) := pyPartition f0 [('.'), ('.')]
        match pyIntHex start_hex with
        | none => none
        | some start =>
          if range_marker then
            -- Found a range like 0030..0039:
            match pyIntHex end_hex with
            | none => none
            | some e => some (.record ⟨start, e⟩ fields)
          else
            -- Found a single codepoint.
            some (.record ⟨start, start⟩ fields)
    | _ => none  -- assert len(fields) >= 2 fails: MalformedLine

/-! ## The per-property tables and the DataSetAssembler helpers -/

/--
Values stored in the Name table.  Python stores either a literal string, or
(for merged ranges) the builtin `NotImplemented` singleton; the module-level
sentinel `UsesNameRule = object()` is a distinct object that `is`-comparison
distinguishes from both.
-/
inductive NameValue where
  | literal (s : List Char)
  | notImplementedTag
  | usesNameRuleTag
deriving DecidableEq

/--
Numbers handled by the numeric-value table.  Python `int` and
`fractions.Fraction` are both exact rationals and compare equal by value
across the two types, so both map to `num`; `nan` is `float("nan")`, used
only as the table's default and never passed to `extend_last` (so the
Python-specific `nan == nan → False` behaviour is never exercised by
`extend_last`'s merge comparison).
-/
inductive PyNumber where
  | num (q : ℚ)
  | nan
deriving DecidableEq

-- https://www.unicode.org/reports/tr44/#Default_Values_Table
def _general_category : PropertyLookup (List Char) := .init ("Cc").data
def _name_init : PropertyLookup NameValue := .init (.literal [])
def _decomposition : PropertyLookup (List Char) := .init []
def _numeric_type : PropertyLookup (Option (List Char)) := .init none
def _numeric_value : PropertyLookup PyNumber := .init .nan
def _script : PropertyLookup (List Char) := .init ("Unknown").data

/-- Failures of `NamePropertyLookup.__getitem__`. -/
inductive NameError where
  | lookup (e : LookupError)
  | notImplementedError  -- `raise NotImplementedError(...)`: DerivationRequired
deriving DecidableEq, Repr

/-- The `NamePropertyLookup.__getitem__`: the base lookup, then
`if name is UsesNameRule: raise NotImplementedError(...)`. -/
def NamePropertyLookup.getitem (pl : PropertyLookup NameValue) (codepoint : Int) :
    Except NameError (NameValue × PropertyLookup NameValue) :=
  match pl.getitem codepoint with
  | .error e => .error (.lookup e)
  | .ok (name, pl') =>
      if name = .usesNameRuleTag then .error .notImplementedError
      else .ok (name, pl')

/-- The `add_name`: ranges store the `NotImplemented` builtin, single codepoints
store the literal name. -/
def add_name (pl : PropertyLookup NameValue) (code_point_range : CodepointRange)
    (raw_name : List Char) : Option (PropertyLookup NameValue) :=
  if code_point_range.is_range then
    -- "I'm too lazy to implement codepoint range rules so..."
    pl.extend_last code_point_range .notImplementedTag
  else
    pl.extend_last code_point_range (.literal raw_name)

/-- The `parse_numeral`: `p/q` fields become exact `Fraction`s, other fields
become `int`s.  `none` models a `ValueError` from `int()` or the
`ZeroDivisionError` of `Fraction(p, 0)`. -/
def parse_numeral (numeral : List Char) : Option PyNumber :=
  if (findSub [('/')] numeral).isSome then
    let parts := pyPartition numeral [('/')]
    match pyInt parts.1, pyInt parts.2.2 with
    | some nom, some denom =>
        if denom = 0 then none
        else some (.num ((nom : ℚ) / (denom : ℚ)))
    | _, _ => none
  else
    (pyInt numeral).map (fun n => .num (n : ℚ))

/--
The `add_numeral`, acting on the numeric-type and numeric-value tables.  `none`
models a crash: a failed `assert 0 <= value <= 9`, a `ValueError` from
`int()`, or an ordering violation inside `extend_last`.  The final Python
branch is `elif numeral:`, which under `not (not numeral)` is always taken.
-/
def add_numeral (nt : PropertyLookup (Option (List Char))) (nv : PropertyLookup PyNumber)
    (code_point_range : CodepointRange) (decimal digit numeral : List Char) :
    Option (PropertyLookup (Option (List Char)) × PropertyLookup PyNumber) :=
  if numeral = [] then
    -- Not a number
    some (nt, nv)
  else if decimal ≠ [] then
    match pyInt decimal with
    | none => none
    | some value =>
      if 0 ≤ value ∧ value ≤ 9 then
        match nt.extend_last code_point_range (some ("Decimal").data) with
        | none => none
        | some nt' =>
          match nv.extend_last code_point_range (.num (value : ℚ)) with
          | none => none
          | some nv' => some (nt', nv')
      else none
  else if digit ≠ [] then
    match pyInt digit with
    | none => none
    | some value =>
      if 0 ≤ value ∧ value ≤ 9 then
        match nt.extend_last code_point_range (some ("Digit").data) with
        | none => none
        | some nt' =>
          match nv.extend_last code_point_range (.num (value : ℚ)) with
          | none => none
          | some nv' => some (nt', nv')
      else none
  else
    match parse_numeral numeral with
    | none => none
    | some value =>
      match nt.extend_last code_point_range (some ("Numeric").data) with
      | none => none
      | some nt' =>
        match nv.extend_last code_point_range value with
        | none => none
        | some nv' => some (nt', nv')

/-! ## ScriptFileLoader (`parse_scripts`) -/

/-- Field index of the script name (`SCRIPT = 1`). -/
def SCRIPT : Nat := 1

/-- Keep the non-`None` results of `parse_line` (the list-comprehension filter
in `parse_scripts`). -/
def toRecord? : ParsedLine → Option (CodepointRange × List (List Char))
  | .nothing => none
  | .record r f => some (r, f)

/-- The sort key of `ordered_lines.sort()`: Python compares the
`(CodepointRange, fields)` tuples lexicographically, i.e. by `range.start`,
then `range.end_inclusive`, then the field lists. -/
def sortKey (p : CodepointRange × List (List Char)) :
    Lex (Int × Lex (Int × List (List Char))) :=
  toLex (p.1.start, toLex (p.1.end_inclusive, p.2))

/-- The order used by `ordered_lines.sort()` in `parse_scripts`. -/
def pairLe (a b : CodepointRange × List (List Char)) : Prop :=
  sortKey a ≤ sortKey b

instance : DecidableRel pairLe := fun a b =>
  inferInstanceAs (Decidable (sortKey a ≤ sortKey b))

instance : IsTotal (CodepointRange × List (List Char)) pairLe :=
  ⟨fun a b => le_total (sortKey a) (sortKey b)⟩

instance : IsTrans (CodepointRange × List (List Char)) pairLe :=
  ⟨fun _ _ _ hab hbc => le_trans hab hbc⟩

/-- The buffering list comprehension of `parse_scripts`: parse every line,
keeping the non-`None` results; a malformed line aborts the whole load. -/
def slurp_lines : List (List Char) → Option (List (CodepointRange × List (List Char)))
  | [] => some []
  | line :: rest =>
      match parse_line line with
      | none => none
      | some .nothing => slurp_lines rest
      | some (.record r f) => (slurp_lines rest).map (fun acc => (r, f) :: acc)

/--
The `parse_scripts`, over an already-decoded list of lines: parse and buffer every
line, sort the buffered pairs, then stream them into the (initially empty)
script table via `extend_last`.  `none` models any crash: a malformed line, a
missing script field, or an `extend_last` ordering violation.
-/
def parse_scripts_lines (lines : List (List Char)) : Option (PropertyLookup (List Char)) := do
  -- Scripts.txt is ordered BY SCRIPT, and not BY CODE POINT.
  -- Slurp all the data first, then sort it to insert ordered into the PropertyLookup
  let ordered_lines ← slurp_lines lines
  (List.insertionSort pairLe ordered_lines).foldlM
    (fun tbl rf =>
      match rf.2[SCRIPT]? with
      | none => none
      | some f => tbl.extend_last rf.1 f)
    _script

/-! ## `Codepoint.to_numeric` (codepoint.py) -/

/-- Failures of `Codepoint.to_numeric`. -/
inductive ToNumericError where
  | lookup (e : LookupError)
  | valueError  -- `raise ValueError` with no arguments: the NotANumber condition
deriving DecidableEq, Repr

/-- Result of `Codepoint.to_numeric`: either `float(self.numeric_value)` (the
IEEE conversion itself happens above the layer modelled here, so we record the
exact number handed to `float`), or the caller-supplied fallback `args[0]`,
returned unchanged. -/
inductive ToNumericResult where
  | converted (v : PyNumber)
  | fallback (v : PyNumber)
deriving DecidableEq

/--
The `Codepoint.to_numeric(*args)` from codepoint.py:
if the numeric type is not `None`, convert the numeric value; otherwise raise
an argument-less `ValueError` when no fallback was supplied, else return the
fallback.  The two table lookups thread their caches.
-/
def Codepoint.to_numeric (nt : PropertyLookup (Option (List Char)))
    (nv : PropertyLookup PyNumber) (codepoint : Int) (args : List PyNumber) :
    Except ToNumericError
      (ToNumericResult × PropertyLookup (Option (List Char)) × PropertyLookup PyNumber) :=
  match nt.getitem codepoint with
  | .error e => .error (.lookup e)
  | .ok (numeric_type, nt') =>
      if numeric_type ≠ none then
        match nv.getitem codepoint with
        | .error e => .error (.lookup e)
        | .ok (v, nv') => .ok (.converted v, nt', nv')
      else
        match args with
        | [] => .error .valueError
        | a :: _ => .ok (.fallback a, nt', nv)

/-! ## Invariants of the table and of the read cache -/

/-- The structural invariant of a stored table: records are pairwise
non-overlapping and in strictly increasing order, and each record is a
well-formed range. -/
def TableInv {α : Type} (t : List (PropertyRecord α)) : Prop :=
  (∀ i j (hi : i < t.length) (hj : j < t.length), i < j →
      t[i].end_inclusive < t[j].start) ∧
  (∀ i (hi : i < t.length), t[i].start ≤ t[i].end_inclusive)

/-- The `r` is the synthesized gap record whose insertion point is `i`: it spans
from the previous stored record's end + 1 (or `CODE_POINT_MIN` when there is
none) to the next stored record's start − 1 (or `CODE_POINT_MAX` when there
is none), and carries the default value. -/
def FakeAt {α : Type} (t : List (PropertyRecord α)) (d : α)
    (r : PropertyRecord α) (i : Nat) : Prop :=
  r.value = d ∧
  ((i = 0 ∧ r.start = CODE_POINT_MIN) ∨
    (0 < i ∧ ∃ p, t[i - 1]? = some p ∧ r.start = p.end_inclusive + 1)) ∧
  ((∃ q, t[i]? = some q ∧ r.end_inclusive = q.start - 1) ∨
    (i = t.length ∧ r.end_inclusive = CODE_POINT_MAX))

/-- A valid cache entry: either a stored record together with its index, or a
synthesized gap record together with its insertion point. -/
def CachePairOK {α : Type} (t : List (PropertyRecord α)) (d : α)
    (r : PropertyRecord α) (i : Nat) : Prop :=
  t[i]? = some r ∨ FakeAt t d r i

/-- The read-cache invariant of a `PropertyLookup`. -/
def CacheOK {α : Type} (pl : PropertyLookup α) : Prop :=
  match pl._previous with
  | none => True
  | some (r, i) => CachePairOK pl._table pl._default r i

/-- The functional specification of a point query: the value of the (unique)
stored record containing the codepoint, or the default when no stored record
contains it. -/
def ValueSpec {α : Type} (t : List (PropertyRecord α)) (d : α) (cp : Int) (v : α) : Prop :=
  (∃ i, ∃ hi : i < t.length, t[i].contains cp = true ∧ v = t[i].value) ∨
  ((∀ i (hi : i < t.length), t[i].contains cp = false) ∧ v = d)

/-- No two *contiguous* adjacent stored records carry an equal value (they
would have been merged at construction). -/
def AdjInv {α : Type} (t : List (PropertyRecord α)) : Prop :=
  ∀ i (h : i + 1 < t.length),
    t[i].end_inclusive + 1 = t[i + 1].start → t[i].value ≠ t[i + 1].value

/-- The `BuiltFrom base pl`: `pl` arises from `base` by a (possibly empty)
sequence of successful `extend_last` inserts of well-formed in-bounds
ranges — the valid construction sequence of a property table. -/
inductive BuiltFrom {α : Type} [DecidableEq α] (base : PropertyLookup α) :
    PropertyLookup α → Prop where
  | refl : BuiltFrom base base
  | extend {pl pl' : PropertyLookup α} {r : CodepointRange} {v : α} :
      BuiltFrom base pl → CODE_POINT_MIN ≤ r.start → r.start ≤ r.end_inclusive →
      r.end_inclusive ≤ CODE_POINT_MAX → pl.extend_last r v = some pl' →
      BuiltFrom base pl'

/-- The `ReachableFrom base pl`: `pl` arises from `base` by valid builds followed
by an arbitrary sequence of successful point queries. -/
inductive ReachableFrom {α : Type} [DecidableEq α] (base : PropertyLookup α) :
    PropertyLookup α → Prop where
  | build {pl : PropertyLookup α} : BuiltFrom base pl → ReachableFrom base pl
  | query {pl : PropertyLookup α} {cp : Int} {v : α} {pl' : PropertyLookup α} :
      ReachableFrom base pl → pl.getitem cp = .ok (v, pl') → ReachableFrom base pl'

/-- Some stored record of the table contains the codepoint and carries the
given value. -/
def Covers {α : Type} (t : List (PropertyRecord α)) (cp : Int) (v : α) : Prop :=
  ∃ rec ∈ t, rec.contains cp = true ∧ rec.value = v

/-- The independent, cache-free point query: range check, then
`_find_with_binary_search` (binary search with gap-default synthesis) alone,
never consulting or updating the cache. -/
def PropertyLookup.get_nocache {α : Type} (pl : PropertyLookup α) (codepoint : Int) :
    Except LookupError α :=
  if codepoint < CODE_POINT_MIN ∨ codepoint > CODE_POINT_MAX then
    .error .outOfRange
  else
    match pl._find_with_binary_search codepoint with
    | none => .error .internalFailure
    | some (record, _) => .ok record.value

theorem PropertyRecord.contains_iff {α : Type} (r : PropertyRecord α) (cp : Int) :
    r.contains cp = true ↔ (r.start ≤ cp ∧ cp ≤ r.end_inclusive) := by
  simp [PropertyRecord.contains]

theorem PropertyRecord.contains_eq_false {α : Type} (r : PropertyRecord α) (cp : Int) :
    r.contains cp = false ↔ (cp < r.start ∨ r.end_inclusive < cp) := by
  constructor
  · intro h
    by_contra hc
    push_neg at hc
    have := (PropertyRecord.contains_iff r cp).mpr ⟨by omega, by omega⟩
    rw [h] at this
    exact Bool.false_ne_true this
  · intro h
    by_contra hc
    have hb : r.contains cp = true := by
      cases hv : r.contains cp
      · exact absurd hv hc
      · rfl
    have := (PropertyRecord.contains_iff r cp).mp hb
    omega

/-- At most one stored record contains a given codepoint. -/
theorem TableInv.contains_unique {α : Type} {t : List (PropertyRecord α)}
    (hinv : TableInv t) {cp : Int} {i j : Nat} (hi : i < t.length) (hj : j < t.length)
    (hci : t[i].contains cp = true) (hcj : t[j].contains cp = true) : i = j := by
  rcases (PropertyRecord.contains_iff _ _).mp hci with ⟨hi1, hi2⟩
  rcases (PropertyRecord.contains_iff _ _).mp hcj with ⟨hj1, hj2⟩
  by_contra hne
  rcases Nat.lt_or_ge i j with hlt | hge
  · have := hinv.1 i j hi hj hlt
    omega
  · have hlt : j < i := by omega
    have := hinv.1 j i hj hi hlt
    omega

/-- The `ValueSpec` determines the value uniquely. -/
theorem ValueSpec.unique {α : Type} {t : List (PropertyRecord α)} {d : α} {cp : Int}
    {v w : α} (hinv : TableInv t) (hv : ValueSpec t d cp v) (hw : ValueSpec t d cp w) :
    v = w := by
  rcases hv with ⟨i, hi, hci, rfl⟩ | ⟨hnone, rfl⟩
  · rcases hw with ⟨j, hj, hcj, rfl⟩ | ⟨hnone, rfl⟩
    · have := hinv.contains_unique hi hj hci hcj
      subst this
      rfl
    · have := hnone i hi
      rw [hci] at this
      simp at this
  · rcases hw with ⟨j, hj, hcj, rfl⟩ | ⟨_, rfl⟩
    · have := hnone j hj
      rw [hcj] at this
      simp at this
    · rfl

/-- One unfolding of `binary_search` in the recursive (`s < e`) case. -/
theorem binary_search_step {α : Type} (t : List (PropertyRecord α)) (cp : Int)
    (s e : Nat) (hse : s < e) (hml : s + (e - s) / 2 < t.length) :
    binary_search t cp s e =
      (if t[s + (e - s) / 2].contains cp then
        some (.found t[s + (e - s) / 2] (s + (e - s) / 2))
      else if cp < t[s + (e - s) / 2].start then
        binary_search t cp s (s + (e - s) / 2)
      else if cp > t[s + (e - s) / 2].end_inclusive then
        binary_search t cp (s + (e - s) / 2 + 1) e
      else none) := by
  conv_lhs => unfold binary_search
  rw [if_neg (by omega : ¬ s ≥ e)]
  simp only [List.getElem?_eq_getElem hml]

/-- Specification of the recursive `binary_search`: on a sorted table, with
bracketing preconditions, it either finds the stored record containing the
codepoint or returns the insertion point. -/
theorem binary_search_spec {α : Type} (t : List (PropertyRecord α)) (cp : Int)
    (hinv : TableInv t) :
    ∀ (n s e : Nat), e - s ≤ n → s ≤ e → e ≤ t.length →
    (∀ j (hj : j < t.length), j < s → t[j].end_inclusive < cp) →
    (∀ j (hj : j < t.length), e ≤ j → cp < t[j].start) →
    (∃ r i, binary_search t cp s e = some (.found r i) ∧
        ∃ hi : i < t.length, t[i] = r ∧ r.contains cp = true) ∨
    (∃ i, binary_search t cp s e = some (.notFound i) ∧ s ≤ i ∧ i ≤ e ∧
        (∀ j (hj : j < t.length), j < i → t[j].end_inclusive < cp) ∧
        (∀ j (hj : j < t.length), i ≤ j → cp < t[j].start)) := by
  intro n
  induction n with
  | zero =>
      intro s e hn hse hel hlow hhigh
      have hes : s = e := by omega
      subst hes
      right
      refine ⟨s, ?_, le_refl s, le_refl s, hlow, hhigh⟩
      unfold binary_search
      simp
  | succ n ih =>
      intro s e hn hse hel hlow hhigh
      by_cases hge : s ≥ e
      · have hes : s = e := by omega
        subst hes
        right
        refine ⟨s, ?_, le_refl s, le_refl s, hlow, hhigh⟩
        unfold binary_search
        simp
      · have hslt : s < e := by omega
        have hd2 : (e - s) / 2 < e - s := Nat.div_lt_self (by omega) (by omega)
        have hml : s + (e - s) / 2 < t.length := by omega
        rw [binary_search_step t cp s e hslt hml]
        set m := s + (e - s) / 2 with hmdef
        have hmid1 : s ≤ m := by omega
        have hmid2 : m < e := by omega
        by_cases hc : t[m].contains cp = true
        · left
          exact ⟨t[m], m, by rw [if_pos hc], hml, rfl, hc⟩
        · have hcf : t[m].contains cp = false := by
            cases hv : t[m].contains cp
            · rfl
            · exact absurd hv hc
          rcases (PropertyRecord.contains_eq_false _ _).mp hcf with hlt | hgt
          · -- codepoint < record.start: recurse on the left half
            have hup : ∀ j (hj : j < t.length), m ≤ j → cp < t[j].start := by
              intro j hj hmj
              rcases Nat.eq_or_lt_of_le hmj with hjq | hjlt
              · subst hjq
                exact hlt
              · have h1 := hinv.1 m j hml hj hjlt
                have h2 := hinv.2 m hml
                omega
            have hrec := ih s m (by omega) hmid1 (by omega) hlow hup
            rw [if_neg hc, if_pos hlt]
            rcases hrec with ⟨r, i, hbs, hi, hti, hcont⟩ | ⟨i, hbs, hsi, him, hlo2, hhi2⟩
            · exact Or.inl ⟨r, i, hbs, hi, hti, hcont⟩
            · exact Or.inr ⟨i, hbs, hsi, by omega, hlo2, hhi2⟩
          · -- codepoint > record.end_inclusive: recurse on the right half
            have hnlt : ¬ cp < t[m].start := by
              have h2 := hinv.2 m hml
              omega
            have hlow2 : ∀ j (hj : j < t.length), j < m + 1 → t[j].end_inclusive < cp := by
              intro j hj hmj
              rcases Nat.eq_or_lt_of_le (Nat.lt_succ_iff.mp hmj) with hjq | hjlt
              · subst hjq
                omega
              · have h1 := hinv.1 j m hj hml hjlt
                have h2 := hinv.2 m hml
                omega
            have hrec := ih (m + 1) e (by omega) (by omega) hel hlow2 hhigh
            rw [if_neg hc, if_neg hnlt, if_pos (by omega : cp > t[m].end_inclusive)]
            rcases hrec with ⟨r, i, hbs, hi, hti, hcont⟩ | ⟨i, hbs, hsi, him, hlo2, hhi2⟩
            · exact Or.inl ⟨r, i, hbs, hi, hti, hcont⟩
            · exact Or.inr ⟨i, hbs, by omega, him, hlo2, hhi2⟩

/-- Specification of `_create_fake_record`: at the insertion point of a
failed search over an in-range codepoint, the synthesized record exists,
satisfies `FakeAt`, and contains the codepoint. -/
theorem create_fake_record_spec {α : Type} (pl : PropertyLookup α) (cp : Int) (i : Nat)
    (hile : i ≤ pl._table.length)
    (hlow : ∀ j (hj : j < pl._table.length), j < i → pl._table[j].end_inclusive < cp)
    (hhigh : ∀ j (hj : j < pl._table.length), i ≤ j → cp < pl._table[j].start)
    (h0 : CODE_POINT_MIN ≤ cp) (h1 : cp ≤ CODE_POINT_MAX) :
    ∃ r, pl._create_fake_record cp i = some (r, i) ∧
      FakeAt pl._table pl._default r i ∧ r.contains cp = true := by
  by_cases hi0 : i > 0
  · have him1 : i - 1 < pl._table.length := by omega
    have hfs : pl._table[i - 1].end_inclusive + 1 ≤ cp := by
      have := hlow (i - 1) him1 (by omega)
      omega
    by_cases hil : i < pl._table.length
    · have hfe : cp ≤ pl._table[i].start - 1 := by
        have := hhigh i hil (le_refl i)
        omega
      refine ⟨⟨pl._table[i - 1].end_inclusive + 1, pl._table[i].start - 1, pl._default⟩,
        ?_, ?_, ?_⟩
      · unfold PropertyLookup._create_fake_record
        rw [if_pos hi0, List.getElem?_eq_getElem him1, List.getElem?_eq_getElem hil]
        exact if_pos ⟨hfs, hfe⟩
      · exact ⟨rfl,
          Or.inr ⟨hi0, pl._table[i - 1], List.getElem?_eq_getElem him1, rfl⟩,
          Or.inl ⟨pl._table[i], List.getElem?_eq_getElem hil, rfl⟩⟩
      · exact (PropertyRecord.contains_iff _ _).mpr ⟨hfs, hfe⟩
    · have hieq : i = pl._table.length := by omega
      refine ⟨⟨pl._table[i - 1].end_inclusive + 1, CODE_POINT_MAX, pl._default⟩, ?_, ?_, ?_⟩
      · unfold PropertyLookup._create_fake_record
        rw [if_pos hi0, List.getElem?_eq_getElem him1, List.getElem?_eq_none (by omega)]
        exact if_pos ⟨hfs, h1⟩
      · exact ⟨rfl,
          Or.inr ⟨hi0, pl._table[i - 1], List.getElem?_eq_getElem him1, rfl⟩,
          Or.inr ⟨hieq, rfl⟩⟩
      · exact (PropertyRecord.contains_iff _ _).mpr ⟨hfs, h1⟩
  · have hieq : i = 0 := by omega
    by_cases hil : i < pl._table.length
    · have hfe : cp ≤ pl._table[i].start - 1 := by
        have := hhigh i hil (le_refl i)
        omega
      refine ⟨⟨CODE_POINT_MIN, pl._table[i].start - 1, pl._default⟩, ?_, ?_, ?_⟩
      · unfold PropertyLookup._create_fake_record
        rw [if_neg hi0, List.getElem?_eq_getElem hil]
        exact if_pos ⟨h0, hfe⟩
      · exact ⟨rfl, Or.inl ⟨hieq, rfl⟩, Or.inl ⟨pl._table[i], List.getElem?_eq_getElem hil, rfl⟩⟩
      · exact (PropertyRecord.contains_iff _ _).mpr ⟨h0, hfe⟩
    · have hleq : i = pl._table.length := by omega
      refine ⟨⟨CODE_POINT_MIN, CODE_POINT_MAX, pl._default⟩, ?_, ?_, ?_⟩
      · unfold PropertyLookup._create_fake_record
        rw [if_neg hi0, List.getElem?_eq_none (by omega)]
        exact if_pos ⟨h0, h1⟩
      · exact ⟨rfl, Or.inl ⟨hieq, rfl⟩, Or.inr ⟨hleq, rfl⟩⟩
      · exact (PropertyRecord.contains_iff _ _).mpr ⟨h0, h1⟩

/-- Specification of `_find_with_binary_search`: for an in-range codepoint on
a sorted table it returns a valid cache pair whose record contains the
codepoint. -/
theorem find_with_binary_search_spec {α : Type} (pl : PropertyLookup α) (cp : Int)
    (hinv : TableInv pl._table) (h0 : CODE_POINT_MIN ≤ cp) (h1 : cp ≤ CODE_POINT_MAX) :
    ∃ r i, pl._find_with_binary_search cp = some (r, i) ∧
      CachePairOK pl._table pl._default r i ∧ r.contains cp = true := by
  have hbs := binary_search_spec pl._table cp hinv pl._table.length 0 pl._table.length
    (by omega) (by omega) (le_refl _)
    (by intro j hj hlt; omega)
    (by intro j hj hle; omega)
  rcases hbs with ⟨r, i, heq, hi, hti, hcont⟩ | ⟨i, heq, _, hile, hlow, hhigh⟩
  · refine ⟨r, i, ?_, Or.inl ?_, hcont⟩
    · unfold PropertyLookup._find_with_binary_search
      rw [heq]
    · rw [List.getElem?_eq_getElem hi, hti]
  · obtain ⟨r, hcf, hfa, hcont⟩ := create_fake_record_spec pl cp i hile hlow hhigh h0 h1
    refine ⟨r, i, ?_, Or.inr hfa, hcont⟩
    unfold PropertyLookup._find_with_binary_search
    rw [heq]
    exact hcf

/-- Within a sorted well-formed table, record ends are monotone in the
index. -/
theorem TableInv.end_mono {α : Type} {t : List (PropertyRecord α)} (hinv : TableInv t)
    {i j : Nat} (hij : i ≤ j) (hj : j < t.length) :
    t[i].end_inclusive ≤ t[j].end_inclusive := by
  rcases Nat.eq_or_lt_of_le hij with heq | hlt
  · subst heq
    exact le_refl _
  · have h1 := hinv.1 i j (by omega) hj hlt
    have h2 := hinv.2 j hj
    omega

/-- Within a sorted well-formed table, record starts are monotone in the
index. -/
theorem TableInv.start_mono {α : Type} {t : List (PropertyRecord α)} (hinv : TableInv t)
    {i j : Nat} (hij : i ≤ j) (hj : j < t.length) :
    t[i].start ≤ t[j].start := by
  rcases Nat.eq_or_lt_of_le hij with heq | hlt
  · subst heq
    exact le_refl _
  · have h1 := hinv.1 i j (by omega) hj hlt
    have h2 := hinv.2 i (by omega)
    omega

/-- A synthesized gap record that contains the codepoint certifies that no
stored record contains it. -/
theorem FakeAt.not_contains {α : Type} {t : List (PropertyRecord α)} {d : α}
    {r : PropertyRecord α} {i : Nat} {cp : Int} (hinv : TableInv t)
    (hfa : FakeAt t d r i) (hcont : r.contains cp = true) :
    ∀ j (hj : j < t.length), t[j].contains cp = false := by
  intro j hj
  rcases (PropertyRecord.contains_iff r cp).mp hcont with ⟨hrs, hre⟩
  rw [PropertyRecord.contains_eq_false]
  rcases Nat.lt_or_ge j i with hji | hij
  · -- j is before the gap: its end is below the codepoint
    right
    rcases hfa.2.1 with ⟨hi0, _⟩ | ⟨hi0, p, hp, hrs2⟩
    · omega
    · obtain ⟨him1, hpm1⟩ := List.getElem?_eq_some.mp hp
      have hje := hinv.end_mono (show j ≤ i - 1 by omega) him1
      rw [hpm1] at hje
      omega
  · -- j is at or after the gap: its start is above the codepoint
    left
    rcases hfa.2.2 with ⟨q, hq, hre2⟩ | ⟨hieq, _⟩
    · obtain ⟨hil, hqi⟩ := List.getElem?_eq_some.mp hq
      have hjs := hinv.start_mono hij hj
      rw [hqi] at hjs
      omega
    · omega

/-- A valid cache pair whose record contains the codepoint yields the
specified query value. -/
theorem CachePairOK.valueSpec {α : Type} {t : List (PropertyRecord α)} {d : α}
    {r : PropertyRecord α} {i : Nat} {cp : Int} (hinv : TableInv t)
    (hok : CachePairOK t d r i) (hcont : r.contains cp = true) :
    ValueSpec t d cp r.value := by
  rcases hok with hst | hfa
  · obtain ⟨hi, hti⟩ := List.getElem?_eq_some.mp hst
    exact Or.inl ⟨i, hi, by rw [hti]; exact hcont, by rw [hti]⟩
  · exact Or.inr ⟨hfa.not_contains hinv hcont, hfa.1⟩

/-- Unfolding of `_find` when the cache is in its initial invalid state. -/
theorem find_prev_none {α : Type} (pl : PropertyLookup α) (cp : Int)
    (h : pl._previous = none) : pl._find cp = pl._search_and_cache cp := by
  unfold PropertyLookup._find
  rw [h]

/-- Unfolding of `_find` when a record is cached. -/
theorem find_prev_some {α : Type} (pl : PropertyLookup α) (cp : Int)
    (record : PropertyRecord α) (index : Nat)
    (h : pl._previous = some (record, index)) :
    pl._find cp =
      (if record.contains cp then some (record.value, pl)
       else if record.directly_before cp then
         match pl._table[index + 1]? with
         | some next =>
             if next.contains cp then
               some (next.value, { pl with _previous := some (next, index + 1) })
             else pl._search_and_cache cp
         | none => pl._search_and_cache cp
       else pl._search_and_cache cp) := by
  unfold PropertyLookup._find
  rw [h]

/-- Specification of the tail search-and-cache path of `_find`. -/
theorem search_and_cache_spec {α : Type} (pl : PropertyLookup α) (cp : Int)
    (hinv : TableInv pl._table) (h0 : CODE_POINT_MIN ≤ cp) (h1 : cp ≤ CODE_POINT_MAX) :
    ∃ r i pl', pl._search_and_cache cp = some (r.value, pl') ∧
      pl'._table = pl._table ∧ pl'._default = pl._default ∧
      pl'._previous = some (r, i) ∧ CachePairOK pl._table pl._default r i ∧
      r.contains cp = true := by
  obtain ⟨r, i, heq, hok, hcont⟩ := find_with_binary_search_spec pl cp hinv h0 h1
  refine ⟨r, i, { pl with _previous := some (r, i) }, ?_, rfl, rfl, rfl, hok, hcont⟩
  unfold PropertyLookup._search_and_cache
  rw [heq]

/-- Specification of `_find`: for an in-range codepoint on a sorted table
with a valid cache, the query succeeds, leaves the stored table and default
untouched, re-establishes the cache invariant, caches a record containing the
codepoint, and returns that record's value — which is the specified value. -/
theorem find_spec {α : Type} (pl : PropertyLookup α) (cp : Int)
    (hinv : TableInv pl._table) (hc : CacheOK pl)
    (h0 : CODE_POINT_MIN ≤ cp) (h1 : cp ≤ CODE_POINT_MAX) :
    ∃ r i pl', pl._find cp = some (r.value, pl') ∧
      pl'._table = pl._table ∧ pl'._default = pl._default ∧
      pl'._previous = some (r, i) ∧ CachePairOK pl._table pl._default r i ∧
      r.contains cp = true ∧ ValueSpec pl._table pl._default cp r.value := by
  have hmain :
      ∃ r i pl', pl._find cp = some (r.value, pl') ∧
        pl'._table = pl._table ∧ pl'._default = pl._default ∧
        pl'._previous = some (r, i) ∧ CachePairOK pl._table pl._default r i ∧
        r.contains cp = true := by
    rcases hprev : pl._previous with _ | ⟨record, index⟩
    · rw [find_prev_none pl cp hprev]
      exact search_and_cache_spec pl cp hinv h0 h1
    · rw [find_prev_some pl cp record index hprev]
      have hcp : CachePairOK pl._table pl._default record index := by
        unfold CacheOK at hc
        rw [hprev] at hc
        exact hc
      by_cases hcont : record.contains cp = true
      · rw [if_pos hcont]
        exact ⟨record, index, pl, rfl, rfl, rfl, hprev, hcp, hcont⟩
      · rw [if_neg hcont]
        by_cases hdb : record.directly_before cp = true
        · rw [if_pos hdb]
          rcases hnext : pl._table[index + 1]? with _ | next
          · simp only [hnext]
            exact search_and_cache_spec pl cp hinv h0 h1
          · simp only [hnext]
            by_cases hnc : next.contains cp = true
            · rw [if_pos hnc]
              exact ⟨next, index + 1, _, rfl, rfl, rfl, rfl, Or.inl hnext, hnc⟩
            · rw [if_neg hnc]
              exact search_and_cache_spec pl cp hinv h0 h1
        · rw [if_neg hdb]
          exact search_and_cache_spec pl cp hinv h0 h1
  obtain ⟨r, i, pl', heq, ht, hd, hp, hok, hcont⟩ := hmain
  exact ⟨r, i, pl', heq, ht, hd, hp, hok, hcont, hok.valueSpec hinv hcont⟩

/-- The `__getitem__` rejects out-of-range codepoints with the `IndexError`. -/
theorem getitem_out_of_range {α : Type} (pl : PropertyLookup α) (cp : Int)
    (h : cp < CODE_POINT_MIN ∨ cp > CODE_POINT_MAX) :
    pl.getitem cp = .error .outOfRange := by
  unfold PropertyLookup.getitem
  rw [if_pos h]

/-- Specification of `__getitem__` for an in-range codepoint on a valid
lookup. -/
theorem getitem_spec {α : Type} (pl : PropertyLookup α) (cp : Int)
    (hinv : TableInv pl._table) (hc : CacheOK pl)
    (h0 : CODE_POINT_MIN ≤ cp) (h1 : cp ≤ CODE_POINT_MAX) :
    ∃ r i pl', pl.getitem cp = .ok (r.value, pl') ∧
      pl'._table = pl._table ∧ pl'._default = pl._default ∧
      pl'._previous = some (r, i) ∧ CachePairOK pl._table pl._default r i ∧
      r.contains cp = true ∧ ValueSpec pl._table pl._default cp r.value := by
  obtain ⟨r, i, pl', heq, ht, hd, hp, hok, hcont, hvs⟩ := find_spec pl cp hinv hc h0 h1
  refine ⟨r, i, pl', ?_, ht, hd, hp, hok, hcont, hvs⟩
  unfold PropertyLookup.getitem
  rw [if_neg (by push_neg; exact ⟨h0, h1⟩)]
  rw [heq]

/-- A successful `__getitem__` implies the codepoint was in range and the
result came from `_find`. -/
theorem getitem_ok_elim {α : Type} {pl : PropertyLookup α} {cp : Int} {v : α}
    {pl' : PropertyLookup α} (h : pl.getitem cp = .ok (v, pl')) :
    (CODE_POINT_MIN ≤ cp ∧ cp ≤ CODE_POINT_MAX) ∧ pl._find cp = some (v, pl') := by
  unfold PropertyLookup.getitem at h
  by_cases hr : cp < CODE_POINT_MIN ∨ cp > CODE_POINT_MAX
  · rw [if_pos hr] at h
    cases h
  · rw [if_neg hr] at h
    push_neg at hr
    rcases hf : pl._find cp with _ | res
    · rw [hf] at h
      cases h
    · rw [hf] at h
      cases h
      exact ⟨⟨hr.1, hr.2⟩, rfl⟩

/-! ## `extend_last`: case equations and invariant preservation -/

/-- The `extend_last` on an empty table appends unconditionally. -/
theorem extend_last_nil {α : Type} [DecidableEq α] (pl : PropertyLookup α)
    (h : pl._table = []) (r : CodepointRange) (v : α) :
    pl.extend_last r v =
      some { pl with _table := pl._table ++ [PropertyRecord.from_range r v] } := by
  unfold PropertyLookup.extend_last
  rw [h, List.getLast?_nil]

/-- The `extend_last` on a non-empty table: the ordering assert, then merge or
append. -/
theorem extend_last_last {α : Type} [DecidableEq α] (pl : PropertyLookup α)
    (last : PropertyRecord α) (h : pl._table.getLast? = some last)
    (r : CodepointRange) (v : α) :
    pl.extend_last r v =
      (if r.start > last.end_inclusive then
        if r.start = last.end_inclusive + 1 ∧ v = last.value then
          some { pl with
            _table := pl._table.dropLast ++ [⟨last.start, r.end_inclusive, v⟩] }
        else
          some { pl with _table := pl._table ++ [PropertyRecord.from_range r v] }
      else none) := by
  unfold PropertyLookup.extend_last
  rw [h]

/-- The `TableInv` phrased with `List.Pairwise`. -/
theorem tableInv_iff_pairwise {α : Type} (t : List (PropertyRecord α)) :
    TableInv t ↔
      (t.Pairwise (fun a b => a.end_inclusive < b.start) ∧
        ∀ r ∈ t, r.start ≤ r.end_inclusive) := by
  unfold TableInv
  rw [List.pairwise_iff_getElem]
  constructor
  · rintro ⟨h1, h2⟩
    refine ⟨h1, ?_⟩
    intro x hx
    obtain ⟨i, hi, rfl⟩ := List.mem_iff_getElem.mp hx
    exact h2 i hi
  · rintro ⟨h1, h2⟩
    exact ⟨h1, fun i hi => h2 _ (List.getElem_mem hi)⟩

/-- The `AdjInv` phrased with `List.Chain'`. -/
theorem adjInv_iff_chain {α : Type} (t : List (PropertyRecord α)) :
    AdjInv t ↔
      t.Chain' (fun a b => a.end_inclusive + 1 = b.start → a.value ≠ b.value) := by
  unfold AdjInv
  rw [List.chain'_iff_get]
  constructor
  · intro h i hi
    simp only [List.get_eq_getElem]
    exact h i (by omega)
  · intro h i hi hcontig
    have h2 := h i (by omega)
    simp only [List.get_eq_getElem] at h2
    exact h2 hcontig

/-- A successful `extend_last` with a well-formed range preserves the table
invariants, leaves default and cache untouched, and ends the table at the
inserted range's end. -/
theorem extend_last_preserves {α : Type} [DecidableEq α]
    {pl pl' : PropertyLookup α} {r : CodepointRange} {v : α}
    (hinv : TableInv pl._table) (hadj : AdjInv pl._table)
    (hwf : r.start ≤ r.end_inclusive)
    (h : pl.extend_last r v = some pl') :
    TableInv pl'._table ∧ AdjInv pl'._table ∧
      pl'._default = pl._default ∧ pl'._previous = pl._previous ∧
      pl'._table.getLast?.map (fun x => x.end_inclusive) = some r.end_inclusive := by
  obtain ⟨hpw, hmemwf⟩ := (tableInv_iff_pairwise pl._table).mp hinv
  have hch := (adjInv_iff_chain pl._table).mp hadj
  rcases hgl : pl._table.getLast? with _ | last
  · -- empty table
    have hnil : pl._table = [] := List.getLast?_eq_none_iff.mp hgl
    rw [extend_last_nil pl hnil r v] at h
    cases h
    refine ⟨?_, ?_, rfl, rfl, ?_⟩
    · show TableInv (pl._table ++ [PropertyRecord.from_range r v])
      refine (tableInv_iff_pairwise _).mpr ⟨?_, ?_⟩
      · rw [hnil, List.nil_append]
        exact List.pairwise_singleton _ _
      · rw [hnil, List.nil_append]
        intro x hx
        simp only [List.mem_singleton] at hx
        subst hx
        exact hwf
    · show AdjInv (pl._table ++ [PropertyRecord.from_range r v])
      refine (adjInv_iff_chain _).mpr ?_
      rw [hnil, List.nil_append]
      exact List.chain'_singleton _
    · show ((pl._table ++ [PropertyRecord.from_range r v]).getLast?).map
          (fun x => x.end_inclusive) = some r.end_inclusive
      rw [List.getLast?_concat]
      rfl
  · -- non-empty table
    have hne : pl._table ≠ [] := by
      intro hcon
      rw [hcon, List.getLast?_nil] at hgl
      cases hgl
    have hlastg : last = pl._table.getLast hne := by
      have h2 := List.getLast?_eq_getLast pl._table hne
      rw [hgl] at h2
      exact Option.some.inj h2
    have htd : pl._table.dropLast ++ [last] = pl._table := by
      rw [hlastg]
      exact List.dropLast_append_getLast hne
    have hlastmem : last ∈ pl._table := by
      rw [← htd]
      exact List.mem_append_right _ (by simp)
    have hlastwf := hmemwf last hlastmem
    have hcross : ∀ a ∈ pl._table.dropLast, a.end_inclusive < last.start := by
      have h2 := hpw
      rw [← htd] at h2
      have h3 := (List.pairwise_append.mp h2).2.2
      intro a ha
      exact h3 a ha last (by simp)
    have hlastchain : ∀ x ∈ pl._table.dropLast.getLast?,
        (x.end_inclusive + 1 = last.start → x.value ≠ last.value) := by
      have h2 := hch
      rw [← htd] at h2
      have h3 := (List.chain'_append.mp h2).2.2
      intro x hx
      exact h3 x hx last (by simp)
    rw [extend_last_last pl last hgl r v] at h
    by_cases hgt : r.start > last.end_inclusive
    · rw [if_pos hgt] at h
      have hallend : ∀ a ∈ pl._table, a.end_inclusive < r.start := by
        intro a ha
        rw [← htd] at ha
        rcases List.mem_append.mp ha with hd | hl
        · have h1 := hcross a hd
          omega
        · simp only [List.mem_singleton] at hl
          subst hl
          omega
      by_cases hmerge : r.start = last.end_inclusive + 1 ∧ v = last.value
      · -- merge: replace the last record in place
        rw [if_pos hmerge] at h
        cases h
        refine ⟨?_, ?_, rfl, rfl, ?_⟩
        · show TableInv (pl._table.dropLast ++ [⟨last.start, r.end_inclusive, v⟩])
          refine (tableInv_iff_pairwise _).mpr ⟨?_, ?_⟩
          · refine List.pairwise_append.mpr
              ⟨hpw.sublist (List.dropLast_sublist _), List.pairwise_singleton _ _, ?_⟩
            intro a ha b hb
            simp only [List.mem_singleton] at hb
            subst hb
            exact hcross a ha
          · intro x hx
            rcases List.mem_append.mp hx with hd | hl
            · exact hmemwf x ((List.dropLast_sublist _).mem hd)
            · simp only [List.mem_singleton] at hl
              subst hl
              show last.start ≤ r.end_inclusive
              omega
        · show AdjInv (pl._table.dropLast ++ [⟨last.start, r.end_inclusive, v⟩])
          refine (adjInv_iff_chain _).mpr ?_
          refine List.chain'_append.mpr
            ⟨ List.Chain'.prefix hch ( List.dropLast_prefix _), List.chain'_singleton _, ?_⟩
          intro x hx y hy
          simp only [List.head?_cons, Option.mem_some_iff] at hy
          subst hy
          intro hcontig hveq
          exact hlastchain x hx hcontig (hveq.trans hmerge.2)
        · show ((pl._table.dropLast ++
              [(⟨last.start, r.end_inclusive, v⟩ : PropertyRecord α)]).getLast?).map
              (fun x => x.end_inclusive) = some r.end_inclusive
          rw [List.getLast?_concat]
          rfl
      · -- append a new record
        rw [if_neg hmerge] at h
        cases h
        refine ⟨?_, ?_, rfl, rfl, ?_⟩
        · show TableInv (pl._table ++ [PropertyRecord.from_range r v])
          refine (tableInv_iff_pairwise _).mpr ⟨?_, ?_⟩
          · refine List.pairwise_append.mpr ⟨hpw, List.pairwise_singleton _ _, ?_⟩
            intro a ha b hb
            simp only [List.mem_singleton] at hb
            subst hb
            exact hallend a ha
          · intro x hx
            rcases List.mem_append.mp hx with hd | hl
            · exact hmemwf x hd
            · simp only [List.mem_singleton] at hl
              subst hl
              exact hwf
        · show AdjInv (pl._table ++ [PropertyRecord.from_range r v])
          refine (adjInv_iff_chain _).mpr ?_
          refine List.chain'_append.mpr ⟨hch, List.chain'_singleton _, ?_⟩
          intro x hx y hy
          simp only [List.head?_cons, Option.mem_some_iff] at hy
          subst hy
          rw [hgl] at hx
          simp only [Option.mem_some_iff] at hx
          subst hx
          intro hcontig hveq
          -- contiguous append with equal value contradicts taking this branch
          exact hmerge ⟨hcontig.symm, hveq.symm⟩
        · show ((pl._table ++ [PropertyRecord.from_range r v]).getLast?).map
              (fun x => x.end_inclusive) = some r.end_inclusive
          rw [List.getLast?_concat]
          rfl
    · rw [if_neg hgt] at h
      cases h

/-- The `extend_last` fails exactly when the ordering contract is violated. -/
theorem extend_last_eq_none_iff {α : Type} [DecidableEq α]
    (pl : PropertyLookup α) (last : PropertyRecord α)
    (h : pl._table.getLast? = some last) (r : CodepointRange) (v : α) :
    pl.extend_last r v = none ↔ r.start ≤ last.end_inclusive := by
  rw [extend_last_last pl last h r v]
  by_cases hgt : r.start > last.end_inclusive
  · rw [if_pos hgt]
    constructor
    · intro hc
      by_cases hm : r.start = last.end_inclusive + 1 ∧ v = last.value
      · rw [if_pos hm] at hc
        cases hc
      · rw [if_neg hm] at hc
        cases hc
    · intro hle
      omega
  · rw [if_neg hgt]
    exact ⟨fun _ => by omega, fun _ => rfl⟩

theorem tableInv_nil {α : Type} : TableInv ([] : List (PropertyRecord α)) :=
  ⟨fun i j hi hj hij => by simp at hi, fun i hi => by simp at hi⟩

theorem adjInv_nil {α : Type} : AdjInv ([] : List (PropertyRecord α)) :=
  fun i hi => by simp at hi

theorem cacheOK_of_none {α : Type} {pl : PropertyLookup α}
    (hp : pl._previous = none) : CacheOK pl := by
  unfold CacheOK
  rw [hp]
  trivial

theorem cacheOK_of_some {α : Type} {pl : PropertyLookup α} {r : PropertyRecord α} {i : Nat}
    (hp : pl._previous = some (r, i)) (hok : CachePairOK pl._table pl._default r i) :
    CacheOK pl := by
  unfold CacheOK
  rw [hp]
  exact hok

/-- Building preserves the table invariants and never touches the default or
the cache. -/
theorem BuiltFrom.preserves {α : Type} [DecidableEq α] {base pl : PropertyLookup α}
    (hb : BuiltFrom base pl) (hinv : TableInv base._table) (hadj : AdjInv base._table) :
    TableInv pl._table ∧ AdjInv pl._table ∧
      pl._default = base._default ∧ pl._previous = base._previous := by
  induction hb with
  | refl => exact ⟨hinv, hadj, rfl, rfl⟩
  | extend hb h0 hwf h1 hext ih =>
      obtain ⟨hi, ha, hd, hp⟩ := ih
      obtain ⟨hi2, ha2, hd2, hp2, _⟩ := extend_last_preserves hi ha hwf hext
      exact ⟨hi2, ha2, hd2.trans hd, hp2.trans hp⟩

/-- Any state reachable from a freshly initialized table satisfies the table
and cache invariants and keeps the configured default. -/
theorem ReachableFrom.preserves_inv {α : Type} [DecidableEq α] {base pl : PropertyLookup α}
    (hr : ReachableFrom base pl) (hinv : TableInv base._table) (hadj : AdjInv base._table)
    (hprev : base._previous = none) :
    TableInv pl._table ∧ AdjInv pl._table ∧ pl._default = base._default ∧ CacheOK pl := by
  induction hr with
  | build hb =>
      obtain ⟨hi, ha, hd, hp⟩ := hb.preserves hinv hadj
      exact ⟨hi, ha, hd, cacheOK_of_none (hp.trans hprev)⟩
  | query hrq hq ih =>
      rename_i pl0 cp v pl'
      obtain ⟨hi, ha, hd, hc⟩ := ih
      obtain ⟨⟨h0, h1⟩, hfind⟩ := getitem_ok_elim hq
      obtain ⟨r, i, pl'', heq, ht, hdd, hpp, hok, hcont, hvs⟩ := find_spec pl0 cp hi hc h0 h1
      rw [hfind] at heq
      have hpl : pl'' = pl' := by
        cases heq
        rfl
      subst hpl
      refine ⟨by rw [ht]; exact hi, by rw [ht]; exact ha, by rw [hdd]; exact hd, ?_⟩
      refine cacheOK_of_some hpp ?_
      rw [ht, hdd]
      exact hok

/-- The invariants of a freshly initialized table. -/
theorem init_valid {α : Type} (d : α) :
    TableInv (PropertyLookup.init d)._table ∧ AdjInv (PropertyLookup.init d)._table ∧
      (PropertyLookup.init d)._previous = none ∧ (PropertyLookup.init d)._default = d :=
  ⟨tableInv_nil, adjInv_nil, rfl, rfl⟩

/-! ## Claim theorems -/

/--
C4: on a non-empty table `extend_last` fails (OrderingViolation) iff
`range.start ≤ last.end_inclusive`; when it succeeds with
`range.start = last.end + 1` and an equal value it merges in place (the last
record's end moves to `range.end_inclusive`, no record appended); in every
other successful case — and always on an empty table — exactly one record is
appended.
-/
theorem C4_extend_last_contract {α : Type} [DecidableEq α]
    (pl : PropertyLookup α) (r : CodepointRange) (v : α) :
    (pl._table = [] →
      pl.extend_last r v =
        some { pl with _table := pl._table ++ [PropertyRecord.from_range r v] } ∧
      ∀ pl', pl.extend_last r v = some pl' →
        pl'._table.length = pl._table.length + 1) ∧
    (∀ last, pl._table.getLast? = some last →
      ((pl.extend_last r v = none ↔ r.start ≤ last.end_inclusive) ∧
       (r.start = last.end_inclusive + 1 → v = last.value →
         ∃ pl', pl.extend_last r v = some pl' ∧
           pl'._table = pl._table.dropLast ++ [⟨last.start, r.end_inclusive, v⟩] ∧
           pl'._table.length = pl._table.length) ∧
       (last.end_inclusive < r.start →
         ¬(r.start = last.end_inclusive + 1 ∧ v = last.value) →
         ∃ pl', pl.extend_last r v = some pl' ∧
           pl'._table = pl._table ++ [PropertyRecord.from_range r v] ∧
           pl'._table.length = pl._table.length + 1))) := by
  constructor
  · intro hnil
    refine ⟨extend_last_nil pl hnil r v, ?_⟩
    intro pl' h
    rw [extend_last_nil pl hnil r v] at h
    cases h
    simp
  · intro last hlast
    have hne : pl._table ≠ [] := by
      intro hcon
      rw [hcon, List.getLast?_nil] at hlast
      cases hlast
    have hpos : 0 < pl._table.length := List.length_pos.mpr hne
    refine ⟨extend_last_eq_none_iff pl last hlast r v, ?_, ?_⟩
    · intro hc hv
      rw [extend_last_last pl last hlast r v, if_pos (by omega), if_pos ⟨hc, hv⟩]
      refine ⟨_, rfl, rfl, ?_⟩
      simp only [List.length_append, List.length_dropLast, List.length_singleton]
      omega
    · intro hgt hnm
      rw [extend_last_last pl last hlast r v, if_pos hgt, if_neg hnm]
      exact ⟨_, rfl, rfl, by simp⟩

/-- Witness for C4 at a concrete one-record table. -/
theorem C4_extend_last_contract_witness :
    ((PropertyLookup.init ("d")).extend_last ⟨0, 1⟩ ("a") =
      some (⟨[⟨0, 1, ("a")⟩], ("d"), none⟩ : PropertyLookup String)) ∧
    ((⟨[⟨0, 1, ("a")⟩], ("d"), none⟩ : PropertyLookup String).extend_last ⟨1, 5⟩ ("a") =
        none ↔ (1 : Int) ≤ 1) ∧
    (∃ pl₂, (⟨[⟨0, 1, ("a")⟩], ("d"), none⟩ :
        PropertyLookup String).extend_last ⟨2, 5⟩ ("a") = some pl₂ ∧
      pl₂._table = [⟨0, 5, ("a")⟩] ∧ pl₂._table.length = 1) := by
  have h2 := ((C4_extend_last_contract (α := String)
    ⟨[⟨0, 1, ("a")⟩], ("d"), none⟩ ⟨1, 5⟩ ("a")).2 ⟨0, 1, ("a")⟩ rfl).1
  have h3 := ((C4_extend_last_contract (α := String)
    ⟨[⟨0, 1, ("a")⟩], ("d"), none⟩ ⟨2, 5⟩ ("a")).2 ⟨0, 1, ("a")⟩ rfl).2.1 (by decide) rfl
  obtain ⟨pl₂, hp, ht, hl⟩ := h3
  exact ⟨rfl, h2, pl₂, hp, by rw [ht]; rfl, by rw [hl]; rfl⟩

/--
C5 counterexample: two successful `extend_last` inserts with equal values
separated by a gap leave two *adjacent* stored records carrying an equal
value, refuting the claim that no two adjacent stored records share an equal
value.
-/
theorem C5_counterexample :
    ∃ pl₁ pl₂ : PropertyLookup String,
      (PropertyLookup.init ("d")).extend_last ⟨0, 1⟩ ("a") = some pl₁ ∧
      pl₁.extend_last ⟨3, 4⟩ ("a") = some pl₂ ∧
      pl₂._table = [⟨0, 1, ("a")⟩, ⟨3, 4, ("a")⟩] ∧
      ∃ h : 1 < pl₂._table.length,
        pl₂._table[0].value = pl₂._table[1].value := by
  refine ⟨⟨[⟨0, 1, ("a")⟩], ("d"), none⟩, ⟨[⟨0, 1, ("a")⟩, ⟨3, 4, ("a")⟩], ("d"), none⟩,
    ?_, ?_, rfl, by decide, rfl⟩
  · rfl
  · rfl

/--
C5 (amended): after any valid sequence of successful `extend_last` inserts
the stored records have strictly increasing starts and are pairwise
non-overlapping, and no two adjacent *contiguous* stored records (next start
= previous end + 1) share an equal value.
-/
theorem C5_amended {α : Type} [DecidableEq α] {d : α} {pl : PropertyLookup α}
    (hb : BuiltFrom (PropertyLookup.init d) pl) :
    (∀ i j (hi : i < pl._table.length) (hj : j < pl._table.length), i < j →
        pl._table[i].end_inclusive < pl._table[j].start) ∧
    (∀ i j (hi : i < pl._table.length) (hj : j < pl._table.length), i < j →
        pl._table[i].start < pl._table[j].start) ∧
    AdjInv pl._table := by
  obtain ⟨hi, ha, _, _⟩ := hb.preserves tableInv_nil adjInv_nil
  refine ⟨hi.1, ?_, ha⟩
  intro i j hii hjj hij
  have h1 := hi.1 i j hii hjj hij
  have h2 := hi.2 i hii
  omega

/-- Witness for C5 (amended) on a concrete two-insert build. -/
theorem C5_amended_witness :
    ∃ pl₂ : PropertyLookup String,
      pl₂._table = [⟨0, 1, ("a")⟩, ⟨3, 4, ("a")⟩] ∧ AdjInv pl₂._table := by
  have hstep1 : (PropertyLookup.init ("d")).extend_last ⟨0, 1⟩ ("a") =
      some (⟨[⟨0, 1, ("a")⟩], ("d"), none⟩ : PropertyLookup String) := by rfl
  have hstep2 : (⟨[⟨0, 1, ("a")⟩], ("d"), none⟩ :
      PropertyLookup String).extend_last ⟨3, 4⟩ ("a") =
      some (⟨[⟨0, 1, ("a")⟩, ⟨3, 4, ("a")⟩], ("d"), none⟩ : PropertyLookup String) := by rfl
  have hb : BuiltFrom (PropertyLookup.init ("d"))
      (⟨[⟨0, 1, ("a")⟩, ⟨3, 4, ("a")⟩], ("d"), none⟩ : PropertyLookup String) :=
    .extend (.extend .refl (by decide) (by decide) (by decide) hstep1)
      (by decide) (by decide) (by decide) hstep2
  exact ⟨_, rfl, (C5_amended hb).2.2⟩

/--
C1: for a property table built by a valid sequence of `extend_last` inserts,
the point query fails with OutOfRange exactly when the codepoint is outside
`[0, 0x10FFFF]`; for every in-range codepoint it terminates and returns the
value of the unique stored record containing it or, when no stored record
contains it, the configured default carried by a synthesized virtual record
spanning from the previous stored record's end + 1 (or 0) to the next stored
record's start − 1 (or 0x10FFFF); the synthetic record is only cached, and
the stored table is never modified.
-/
theorem C1_getitem_total {α : Type} [DecidableEq α] {d : α} {pl : PropertyLookup α}
    (hb : BuiltFrom (PropertyLookup.init d) pl) (cp : Int) :
    (pl.getitem cp = .error .outOfRange ↔ (cp < CODE_POINT_MIN ∨ cp > CODE_POINT_MAX)) ∧
    (CODE_POINT_MIN ≤ cp → cp ≤ CODE_POINT_MAX →
      ∃ v pl', pl.getitem cp = .ok (v, pl') ∧ pl'._table = pl._table ∧
        ((∃ i, ∃ hi : i < pl._table.length,
            pl._table[i].contains cp = true ∧ v = pl._table[i].value ∧
            ∀ j (hj : j < pl._table.length), pl._table[j].contains cp = true → j = i) ∨
         ((∀ i (hi : i < pl._table.length), pl._table[i].contains cp = false) ∧
           v = pl._default ∧
           ∃ r idx, pl'._previous = some (r, idx) ∧
             FakeAt pl._table pl._default r idx ∧ r.contains cp = true ∧
             (∀ j (hj : j < pl._table.length),
               (j < idx ↔ pl._table[j].end_inclusive < cp))))) := by
  obtain ⟨hinv, hadj, hdd, hpp⟩ := hb.preserves tableInv_nil adjInv_nil
  have hco : CacheOK pl := cacheOK_of_none hpp
  constructor
  · constructor
    · intro herr
      by_contra hio
      push_neg at hio
      obtain ⟨r, i, pl', heq, _⟩ := getitem_spec pl cp hinv hco hio.1 hio.2
      rw [heq] at herr
      cases herr
    · exact getitem_out_of_range pl cp
  · intro h0 h1
    obtain ⟨r, i, pl', heq, ht, hdflt, hprev, hok, hcont, hvs⟩ :=
      getitem_spec pl cp hinv hco h0 h1
    refine ⟨r.value, pl', heq, ht, ?_⟩
    rcases hok with hst | hfa
    · -- the cached/found record is stored: the unique-stored-record case
      obtain ⟨hi, hti⟩ := List.getElem?_eq_some.mp hst
      left
      refine ⟨i, hi, by rw [hti]; exact hcont, by rw [hti], ?_⟩
      intro j hj hcj
      exact hinv.contains_unique hj hi hcj (by rw [hti]; exact hcont)
    · -- the found record is synthetic: the gap case
      have hnone := hfa.not_contains hinv hcont
      right
      refine ⟨hnone, hfa.1, r, i, hprev, hfa, hcont, ?_⟩
      intro j hj
      rcases (PropertyRecord.contains_iff r cp).mp hcont with ⟨hrs, hre⟩
      constructor
      · intro hji
        rcases hfa.2.1 with ⟨hi0, _⟩ | ⟨hi0, p, hp, hrs2⟩
        · omega
        · obtain ⟨him1, hpm⟩ := List.getElem?_eq_some.mp hp
          have hje := hinv.end_mono (show j ≤ i - 1 by omega) him1
          rw [hpm] at hje
          omega
      · intro hend
        rcases hfa.2.2 with ⟨q, hq, hre2⟩ | ⟨hieq, _⟩
        · by_contra hij
          push_neg at hij
          obtain ⟨hil, hqm⟩ := List.getElem?_eq_some.mp hq
          have hjs := hinv.start_mono hij hj
          rw [hqm] at hjs
          have hwfj := hinv.2 j hj
          omega
        · omega

/-- Witness for C1: a concrete two-record build queried in its gap. -/
theorem C1_getitem_total_witness :
    ∃ v pl',
      (⟨[⟨0, 1, ("a")⟩, ⟨3, 4, ("a")⟩], ("d"), none⟩ :
        PropertyLookup String).getitem 2 = .ok (v, pl') ∧
      pl'._table = [⟨0, 1, ("a")⟩, ⟨3, 4, ("a")⟩] := by
  have hstep1 : (PropertyLookup.init ("d")).extend_last ⟨0, 1⟩ ("a") =
      some (⟨[⟨0, 1, ("a")⟩], ("d"), none⟩ : PropertyLookup String) := by rfl
  have hstep2 : (⟨[⟨0, 1, ("a")⟩], ("d"), none⟩ :
      PropertyLookup String).extend_last ⟨3, 4⟩ ("a") =
      some (⟨[⟨0, 1, ("a")⟩, ⟨3, 4, ("a")⟩], ("d"), none⟩ : PropertyLookup String) := by rfl
  have hb : BuiltFrom (PropertyLookup.init ("d"))
      (⟨[⟨0, 1, ("a")⟩, ⟨3, 4, ("a")⟩], ("d"), none⟩ : PropertyLookup String) :=
    .extend (.extend .refl (by decide) (by decide) (by decide) hstep1)
      (by decide) (by decide) (by decide) hstep2
  obtain ⟨v, pl', heq, ht, _⟩ := (C1_getitem_total hb 2).2 (by decide) (by decide)
  exact ⟨v, pl', heq, ht⟩

/--
C2: in every state reachable by valid builds and queries, a successful point
query returns exactly the value the independent cache-free binary search
(with gap-default synthesis) returns — the cache never changes a returned
value — and an immediately repeated query for the same codepoint is served
from the cached record (which contains the codepoint) with the identical
value and an unchanged state, without a fresh search.
-/
theorem C2_cache_transparent {α : Type} [DecidableEq α] {d : α} {pl : PropertyLookup α}
    (hr : ReachableFrom (PropertyLookup.init d) pl) (cp : Int) (v : α)
    (pl' : PropertyLookup α) (hq : pl.getitem cp = .ok (v, pl')) :
    pl.get_nocache cp = .ok v ∧
    pl'.getitem cp = .ok (v, pl') ∧
    ∃ r i, pl'._previous = some (r, i) ∧ r.contains cp = true ∧ v = r.value := by
  obtain ⟨hinv, hadj, hdd, hc⟩ := hr.preserves_inv tableInv_nil adjInv_nil rfl
  obtain ⟨⟨h0, h1⟩, hfind⟩ := getitem_ok_elim hq
  obtain ⟨r, i, pl'', heq, ht, hdflt, hprev, hok, hcont, hvs⟩ := find_spec pl cp hinv hc h0 h1
  rw [hfind] at heq
  have hinj := Option.some.inj heq
  have hv : v = r.value := congrArg Prod.fst hinj
  have hpl : pl' = pl'' := congrArg Prod.snd hinj
  subst hpl
  refine ⟨?_, ?_, r, i, hprev, hcont, hv⟩
  · -- agreement with the cache-free binary search
    obtain ⟨r2, i2, hbs, hok2, hcont2⟩ := find_with_binary_search_spec pl cp hinv h0 h1
    have hvs2 := hok2.valueSpec hinv hcont2
    have hveq : r.value = r2.value := hvs.unique hinv hvs2
    unfold PropertyLookup.get_nocache
    rw [if_neg (by push_neg; exact ⟨h0, h1⟩), hbs, hv, hveq]
  · -- the repeated query is a cache hit: same value, unchanged state
    have hfind2 : pl'._find cp = some (r.value, pl') := by
      rw [find_prev_some pl' cp r i hprev, if_pos hcont]
    unfold PropertyLookup.getitem
    rw [if_neg (by push_neg; exact ⟨h0, h1⟩), hfind2, hv]

/-- Witness for C2 on a concrete build and gap query. -/
theorem C2_cache_transparent_witness :
    ∃ v pl',
      (⟨[⟨0, 1, ("a")⟩, ⟨3, 4, ("a")⟩], ("d"), none⟩ :
        PropertyLookup String).getitem 2 = .ok (v, pl') ∧
      (⟨[⟨0, 1, ("a")⟩, ⟨3, 4, ("a")⟩], ("d"), none⟩ :
        PropertyLookup String).get_nocache 2 = .ok v ∧
      pl'.getitem 2 = .ok (v, pl') := by
  have hstep1 : (PropertyLookup.init ("d")).extend_last ⟨0, 1⟩ ("a") =
      some (⟨[⟨0, 1, ("a")⟩], ("d"), none⟩ : PropertyLookup String) := by rfl
  have hstep2 : (⟨[⟨0, 1, ("a")⟩], ("d"), none⟩ :
      PropertyLookup String).extend_last ⟨3, 4⟩ ("a") =
      some (⟨[⟨0, 1, ("a")⟩, ⟨3, 4, ("a")⟩], ("d"), none⟩ : PropertyLookup String) := by rfl
  have hb : BuiltFrom (PropertyLookup.init ("d"))
      (⟨[⟨0, 1, ("a")⟩, ⟨3, 4, ("a")⟩], ("d"), none⟩ : PropertyLookup String) :=
    .extend (.extend .refl (by decide) (by decide) (by decide) hstep1)
      (by decide) (by decide) (by decide) hstep2
  obtain ⟨hinv, hadj, hdd, hpp⟩ := hb.preserves tableInv_nil adjInv_nil
  obtain ⟨r, i, pl', heq, _⟩ :=
    getitem_spec (⟨[⟨0, 1, ("a")⟩, ⟨3, 4, ("a")⟩], ("d"), none⟩ : PropertyLookup String) 2
      hinv (cacheOK_of_none hpp) (by decide) (by decide)
  have h2 := C2_cache_transparent (.build hb) 2 r.value pl' heq
  exact ⟨r.value, pl', heq, h2.1, h2.2.1⟩

/--
C3 (code evaluation at the failing input): loading the merged CJK Ideograph
First/Last range stores the `NotImplemented` builtin in the name table, and
the name query at 0x4E01 then *returns* that raw tag as a value instead of
raising: `NamePropertyLookup.__getitem__` compares against the distinct
`UsesNameRule` sentinel, which is never stored.
-/
theorem C3_name_returns_raw_tag :
    ∃ pl₁ : PropertyLookup NameValue,
      add_name _name_init ⟨0x4E00, 0x9FFF⟩ ("<CJK Ideograph, First>").data = some pl₁ ∧
      pl₁._table = [⟨0x4E00, 0x9FFF, .notImplementedTag⟩] ∧
      ∃ pl₂, NamePropertyLookup.getitem pl₁ 0x4E01 =
        .ok (NameValue.notImplementedTag, pl₂) := by
  refine ⟨⟨[⟨0x4E00, 0x9FFF, .notImplementedTag⟩], .literal [], none⟩, by rfl, rfl, ?_⟩
  have hinv : TableInv ([⟨0x4E00, 0x9FFF, NameValue.notImplementedTag⟩] :
      List (PropertyRecord NameValue)) := by
    constructor
    · intro i j hi hj hij
      simp at hi hj
      omega
    · intro i hi
      simp at hi
      subst hi
      show (0x4E00 : Int) ≤ 0x9FFF
      decide
  obtain ⟨r, i, pl₂, heq, ht, hd, hp, hok, hcont, hvs⟩ :=
    getitem_spec (⟨[⟨0x4E00, 0x9FFF, .notImplementedTag⟩], .literal [], none⟩ :
      PropertyLookup NameValue) 0x4E01 hinv (cacheOK_of_none rfl) (by decide) (by decide)
  have hval : r.value = NameValue.notImplementedTag := by
    rcases hvs with ⟨j, hj, hcj, hv⟩ | ⟨hnone, _⟩
    · have hj1 : j = 0 := by
        simp at hj
        omega
      subst hj1
      exact hv
    · have := hnone 0 (by simp)
      rw [show (([⟨0x4E00, 0x9FFF, NameValue.notImplementedTag⟩] :
        List (PropertyRecord NameValue))[0]).contains 0x4E01 = true by decide] at this
      cases this
  refine ⟨pl₂, ?_⟩
  unfold NamePropertyLookup.getitem
  rw [heq, hval]
  exact if_neg (by decide : ¬ (NameValue.notImplementedTag = NameValue.usesNameRuleTag))

/--
C6: the general-category table is constructed with default `"Cc"`, the
numeric-type table with default `None`, and the script table with default
`"Unknown"`; and on any validly built table, an in-range codepoint covered by
no stored record yields the configured default from the query.
-/
theorem C6_defaults :
    _general_category._default = ("Cc").data ∧
    _numeric_type._default = none ∧
    _script._default = ("Unknown").data ∧
    (∀ (α : Type) [DecidableEq α] (d : α) (pl : PropertyLookup α),
      BuiltFrom (PropertyLookup.init d) pl →
      ∀ cp : Int, CODE_POINT_MIN ≤ cp → cp ≤ CODE_POINT_MAX →
      (∀ i (hi : i < pl._table.length), pl._table[i].contains cp = false) →
      ∃ pl', pl.getitem cp = .ok (d, pl')) := by
  refine ⟨rfl, rfl, rfl, ?_⟩
  intro α inst d pl hb cp h0 h1 hnone
  obtain ⟨hinv, hadj, hdd, hpp⟩ := hb.preserves tableInv_nil adjInv_nil
  obtain ⟨r, i, pl', heq, ht, hdflt, hprev, hok, hcont, hvs⟩ :=
    getitem_spec pl cp hinv (cacheOK_of_none hpp) h0 h1
  have hval : r.value = d := by
    rcases hvs with ⟨j, hj, hcj, hv⟩ | ⟨_, hv⟩
    · rw [hnone j hj] at hcj
      cases hcj
    · exact hv.trans hdd
  rw [hval] at heq
  exact ⟨pl', heq⟩

/-- Witness for C6: the freshly constructed numeric-type table yields its
`None` default at an uncovered codepoint. -/
theorem C6_defaults_witness :
    ∃ pl', _numeric_type.getitem 0x41 = .ok (none, pl') := by
  refine C6_defaults.2.2.2 (Option (List Char)) none _numeric_type .refl 0x41
    (by decide) (by decide) ?_
  intro i hi
  rw [show _numeric_type._table = [] from rfl] at hi
  simp at hi

/--
C7: `add_numeral` skips records whose numeric-value subfield is empty; a
non-empty decimal subfield stores numeric type `"Decimal"` with its integer
value validated to lie in 0–9; otherwise a non-empty digit subfield stores
`"Digit"` likewise; otherwise `"Numeric"` is stored with the field parsed as
an integer literal or, split once on `"/"`, as an exact rational — in
particular `"1/5"` parses to the exact rational one-fifth.
-/
theorem C7_add_numeral (nt : PropertyLookup (Option (List Char)))
    (nv : PropertyLookup PyNumber) (r : CodepointRange)
    (decimal digit numeral : List Char) :
    (numeral = [] → add_numeral nt nv r decimal digit numeral = some (nt, nv)) ∧
    (numeral ≠ [] → decimal ≠ [] →
      ∀ res, add_numeral nt nv r decimal digit numeral = some res →
        ∃ d : Int, pyInt decimal = some d ∧ 0 ≤ d ∧ d ≤ 9 ∧
          ∃ nt' nv', nt.extend_last r (some ("Decimal").data) = some nt' ∧
            nv.extend_last r (.num (d : ℚ)) = some nv' ∧ res = (nt', nv')) ∧
    (numeral ≠ [] → decimal = [] → digit ≠ [] →
      ∀ res, add_numeral nt nv r decimal digit numeral = some res →
        ∃ d : Int, pyInt digit = some d ∧ 0 ≤ d ∧ d ≤ 9 ∧
          ∃ nt' nv', nt.extend_last r (some ("Digit").data) = some nt' ∧
            nv.extend_last r (.num (d : ℚ)) = some nv' ∧ res = (nt', nv')) ∧
    (numeral ≠ [] → decimal = [] → digit = [] →
      ∀ res, add_numeral nt nv r decimal digit numeral = some res →
        ∃ q, parse_numeral numeral = some q ∧
          ∃ nt' nv', nt.extend_last r (some ("Numeric").data) = some nt' ∧
            nv.extend_last r q = some nv' ∧ res = (nt', nv')) ∧
    (parse_numeral ("1/5").data = some (.num (1/5 : ℚ)) ∧ (5 : ℚ) * (1/5 : ℚ) = 1) := by
  have h15 : parse_numeral ("1/5").data =
      some (.num (((1 : Int) : ℚ) / ((5 : Int) : ℚ))) := by rfl
  refine ⟨?_, ?_, ?_, ?_, by rw [h15]; norm_num, by norm_num⟩
  · intro hn
    unfold add_numeral
    rw [if_pos hn]
  · intro hn hd res hres
    unfold add_numeral at hres
    rw [if_neg hn, if_pos hd] at hres
    rcases hpd : pyInt decimal with _ | d <;> simp only [hpd] at hres
    · cases hres
    · by_cases hb : 0 ≤ d ∧ d ≤ 9

      · rw [if_pos hb] at hres
        rcases hnt : nt.extend_last r (some ("Decimal").data) with _ | nt' <;>
          simp only [hnt] at hres
        · cases hres
        · rcases hnv : nv.extend_last r (.num (d : ℚ)) with _ | nv' <;>
            simp only [hnv] at hres
          · cases hres
          · cases hres
            refine ⟨d, ?_, hb.1, hb.2, nt', nv', ?_, ?_, ?_⟩ <;>
              first
              | rfl
              | assumption
      · rw [if_neg hb] at hres
        cases hres
  · intro hn hd hg res hres
    unfold add_numeral at hres
    rw [if_neg hn, if_neg (by simpa using hd), if_pos hg] at hres
    rcases hpd : pyInt digit with _ | d <;> simp only [hpd] at hres
    · cases hres
    · by_cases hb : 0 ≤ d ∧ d ≤ 9
      · rw [if_pos hb] at hres
        rcases hnt : nt.extend_last r (some ("Digit").data) with _ | nt' <;>
          simp only [hnt] at hres
        · cases hres
        · rcases hnv : nv.extend_last r (.num (d : ℚ)) with _ | nv' <;>
            simp only [hnv] at hres
          · cases hres
          · cases hres
            refine ⟨d, ?_, hb.1, hb.2, nt', nv', ?_, ?_, ?_⟩ <;>
              first
              | rfl
              | assumption
      · rw [if_neg hb] at hres
        cases hres
  · intro hn hd hg res hres
    unfold add_numeral at hres
    rw [if_neg hn, if_neg (by simpa using hd), if_neg (by simpa using hg)] at hres
    rcases hpn : parse_numeral numeral with _ | q <;> simp only [hpn] at hres
    · cases hres
    · rcases hnt : nt.extend_last r (some ("Numeric").data) with _ | nt' <;>
        simp only [hnt] at hres
      · cases hres
      · rcases hnv : nv.extend_last r q with _ | nv' <;> simp only [hnv] at hres
        · cases hres
        · cases hres
          refine ⟨q, ?_, nt', nv', ?_, ?_, ?_⟩ <;>
            first
            | rfl
            | assumption

/-- Witness for C7: U+0037 DIGIT SEVEN with decimal subfield `"7"`. -/
theorem C7_add_numeral_witness :
    ∃ res, add_numeral _numeric_type _numeric_value ⟨0x37, 0x37⟩
        ("7").data ("7").data ("7").data = some res ∧
      ∃ d : Int, pyInt ("7").data = some d ∧ 0 ≤ d ∧ d ≤ 9 ∧
        ∃ nt' nv', _numeric_type.extend_last ⟨0x37, 0x37⟩
            (some ("Decimal").data) = some nt' ∧
          _numeric_value.extend_last ⟨0x37, 0x37⟩ (.num (d : ℚ)) = some nv' ∧
          res = (nt', nv') := by
  have hres : add_numeral _numeric_type _numeric_value ⟨0x37, 0x37⟩
      ("7").data ("7").data ("7").data =
      some (⟨[⟨0x37, 0x37, some ("Decimal").data⟩], none, none⟩,
        ⟨[⟨0x37, 0x37, .num ((7 : Int) : ℚ)⟩], .nan, none⟩) := by rfl
  obtain ⟨d, hd, h0, h9, nt', nv', hnt, hnv, hres2⟩ :=
    (C7_add_numeral _numeric_type _numeric_value ⟨0x37, 0x37⟩
      ("7").data ("7").data ("7").data).2.1 (by decide) (by decide) _ hres
  exact ⟨_, hres, d, hd, h0, h9, nt', nv', hnt, hnv, hres2⟩

/--
C10: the numeric-value table's configured default is the floating-point NaN,
so an in-range codepoint with no stored numeric-value record yields `nan`
from the table query itself, without error; the argument-less `ValueError`
(NotANumber) arises only in `Codepoint.to_numeric`, exactly when the
numeric-type lookup yields `None` and no fallback argument was supplied.
-/
theorem C10_nan_default :
    _numeric_value._default = PyNumber.nan ∧
    (∀ pl : PropertyLookup PyNumber,
      ReachableFrom (PropertyLookup.init PyNumber.nan) pl →
      ∀ cp : Int, CODE_POINT_MIN ≤ cp → cp ≤ CODE_POINT_MAX →
      (∀ i (hi : i < pl._table.length), pl._table[i].contains cp = false) →
      ∃ pl', pl.getitem cp = .ok (PyNumber.nan, pl')) ∧
    (∀ (nt : PropertyLookup (Option (List Char))) (nv : PropertyLookup PyNumber)
      (cp : Int) (args : List PyNumber) (v : Option (List Char))
      (nt' : PropertyLookup (Option (List Char))),
      nt.getitem cp = .ok (v, nt') →
      (Codepoint.to_numeric nt nv cp args = .error .valueError ↔
        (v = none ∧ args = []))) := by
  refine ⟨rfl, ?_, ?_⟩
  · intro pl hr cp h0 h1 hnone
    obtain ⟨hinv, hadj, hdd, hc⟩ := hr.preserves_inv tableInv_nil adjInv_nil rfl
    obtain ⟨r, i, pl', heq, ht, hdflt, hprev, hok, hcont, hvs⟩ :=
      getitem_spec pl cp hinv hc h0 h1
    have hval : r.value = PyNumber.nan := by
      rcases hvs with ⟨j, hj, hcj, hv⟩ | ⟨_, hv⟩
      · rw [hnone j hj] at hcj
        cases hcj
      · exact hv.trans hdd
    rw [hval] at heq
    exact ⟨pl', heq⟩
  · intro nt nv cp args v nt' hget
    have hunf : Codepoint.to_numeric nt nv cp args =
        (if v ≠ none then
          match nv.getitem cp with
          | .error e => .error (.lookup e)
          | .ok (w, nv') => .ok (.converted w, nt', nv')
        else
          match args with
          | [] => .error .valueError
          | a :: _ => .ok (.fallback a, nt', nv)) := by
      unfold Codepoint.to_numeric
      rw [hget]
    rw [hunf]
    by_cases hv : v = none
    · rw [if_neg (by simpa using hv)]
      rcases args with _ | ⟨a, rest⟩
      · exact ⟨fun _ => ⟨hv, rfl⟩, fun _ => rfl⟩
      · constructor
        · intro hcon
          cases hcon
        · rintro ⟨_, hcon⟩
          cases hcon
    · rw [if_pos hv]
      rcases hnv : nv.getitem cp with e | ⟨w, nv'⟩
      · constructor
        · intro hcon
          cases hcon
        · rintro ⟨hcv, _⟩
          exact absurd hcv hv
      · constructor
        · intro hcon
          cases hcon
        · rintro ⟨hcv, _⟩
          exact absurd hcv hv

/-- Witness for C10 at concrete tables: uncovered query yields `nan`, and the
accessor's ValueError appears exactly for a `None` numeric type with no
fallback. -/
theorem C10_nan_default_witness :
    (∃ pl', _numeric_value.getitem 0x41 = .ok (PyNumber.nan, pl')) ∧
    (∀ v nt', _numeric_type.getitem 0x41 = .ok (v, nt') →
      (Codepoint.to_numeric _numeric_type _numeric_value 0x41 [] =
        .error .valueError ↔ (v = none ∧ ([] : List PyNumber) = []))) := by
  constructor
  · refine C10_nan_default.2.1 _numeric_value (.build .refl) 0x41 (by decide) (by decide) ?_
    intro i hi
    rw [show _numeric_value._table = [] from rfl] at hi
    simp at hi
  · intro v nt' hget
    exact C10_nan_default.2.2 _numeric_type _numeric_value 0x41 [] v nt' hget

/-! ## Whitespace-only lines (C9) -/

theorem findSub_singleton_none (c : Char) (l : List Char) (h : c ∉ l) :
    findSub [c] l = none := by
  induction l with
  | nil => rfl
  | cons x rest ih =>
      have hxc : ¬(c = x) := fun he => h (by rw [he]; exact List.mem_cons_self x rest)
      have hpre : List.isPrefixOf [c] (x :: rest) = false := by
        simp [List.isPrefixOf]
        exact hxc
      unfold findSub
      rw [hpre]
      simp only [Bool.false_eq_true, if_false]
      rw [ih (fun hx => h (List.mem_cons_of_mem x hx))]

theorem pySplitChar_no_sep (sep : Char) (l : List Char) (h : sep ∉ l) :
    pySplitChar sep l = [l] := by
  induction l with
  | nil => rfl
  | cons x rest ih =>
      have hxs : ¬(x = sep) := fun he => h (by rw [← he]; exact List.mem_cons_self x rest)
      unfold pySplitChar
      rw [if_neg hxs, ih (fun hx => h (List.mem_cons_of_mem x hx))]

theorem pyStrip_all_space (l : List Char) (h : ∀ c ∈ l, pySpace c = true) :
    pyStrip l = [] := by
  unfold pyStrip
  rw [List.dropWhile_eq_nil_iff.mpr h]
  rfl

theorem rstrip_mem (line : List Char) : ∀ c ∈ pyRstripNewlines line, c ∈ line := by
  intro c hc
  unfold pyRstripNewlines at hc
  rw [List.mem_reverse] at hc
  exact List.mem_reverse.mp ((List.dropWhile_sublist _).mem hc)

/--
C9 (amended): a line consisting only of whitespace characters that is not
empty after stripping trailing newlines is rejected by `parse_line` as
malformed (the content before `#` is non-empty, the single split field strips
to the empty string, and the at-least-two-fields check fails); it is not
treated as the blank/comment "nothing" result.
-/
theorem C9_whitespace_line_malformed (line : List Char)
    (hws : ∀ c ∈ line, pySpace c = true)
    (hne : pyRstripNewlines line ≠ []) :
    parse_line line = none := by
  have hwsl : ∀ c ∈ pyRstripNewlines line, pySpace c = true :=
    fun c hc => hws c (rstrip_mem line c hc)
  have hnoh : ('#') ∉ pyRstripNewlines line := by
    intro hmem
    exact absurd (hwsl _ hmem) (by decide)
  have hnos : (';') ∉ pyRstripNewlines line := by
    intro hmem
    exact absurd (hwsl _ hmem) (by decide)
  have hfind : findSub [('#')] (pyRstripNewlines line) = none :=
    findSub_singleton_none _ _ hnoh
  have hsplit : pySplitChar (';') (pyRstripNewlines line) = [pyRstripNewlines line] :=
    pySplitChar_no_sep _ _ hnos
  have hstrip : pyStrip (pyRstripNewlines line) = [] := pyStrip_all_space _ hwsl
  unfold parse_line
  simp only [pyPartition, hfind]
  rw [if_neg hne]
  simp only [hsplit, List.map_cons, List.map_nil, hstrip]

/-- C9 counterexample: the line `"\n"` consists only of whitespace characters
(no `#`, no `;`), yet `parse_line` returns the "nothing" result reserved for
blank and comment-only lines. -/
theorem C9_counterexample :
    (∀ c ∈ ("\n").data, pySpace c = true) ∧ parse_line ("\n").data = some .nothing := by
  decide

/-- Witness for C9 (amended): the whitespace-only line `" "`. -/
theorem C9_whitespace_line_malformed_witness :
    (∀ c ∈ (" ").data, pySpace c = true) ∧ pyRstripNewlines (" ").data ≠ [] ∧
      parse_line (" ").data = none := by
  refine ⟨by decide, by decide, ?_⟩
  exact C9_whitespace_line_malformed (" ").data (by decide) (by decide)

/-! ## The script loader (C8) -/

theorem CodepointRange.contains_iff_bounds (r : CodepointRange) (cp : Int) :
    r.contains cp = true ↔ (r.start ≤ cp ∧ cp ≤ r.end_inclusive) := by
  simp [CodepointRange.contains]

theorem getLast?_decomp {β : Type} {t : List β} {last : β} (h : t.getLast? = some last) :
    t.dropLast ++ [last] = t := by
  have hne : t ≠ [] := by
    intro hcon
    rw [hcon, List.getLast?_nil] at h
    cases h
  have h2 := List.getLast?_eq_getLast t hne
  rw [h] at h2
  rw [Option.some.inj h2]
  exact List.dropLast_append_getLast hne

/-- The `extend_last` succeeds whenever the inserted range starts strictly after
the stored table's last end. -/
theorem extend_last_succeeds {α : Type} [DecidableEq α] (pl : PropertyLookup α)
    (r : CodepointRange) (v : α)
    (h : ∀ x ∈ pl._table.getLast?, x.end_inclusive < r.start) :
    ∃ pl', pl.extend_last r v = some pl' := by
  rcases hgl : pl._table.getLast? with _ | last
  · exact ⟨_, extend_last_nil pl (List.getLast?_eq_none_iff.mp hgl) r v⟩
  · have hlt := h last (Option.mem_def.mpr hgl)
    rw [extend_last_last pl last hgl r v]
    rw [if_pos (by omega)]
    by_cases hm : r.start = last.end_inclusive + 1 ∧ v = last.value
    · rw [if_pos hm]
      exact ⟨_, rfl⟩
    · rw [if_neg hm]
      exact ⟨_, rfl⟩

/-- A successful `extend_last` preserves every existing covering record
(value included) and makes the inserted range covered with the inserted
value. -/
theorem extend_covers {α : Type} [DecidableEq α] {pl pl' : PropertyLookup α}
    {r : CodepointRange} {v : α} (hinv : TableInv pl._table)
    (hwf : r.start ≤ r.end_inclusive) (h : pl.extend_last r v = some pl') :
    (∀ (cp : Int) (w : α), Covers pl._table cp w → Covers pl'._table cp w) ∧
    (∀ cp : Int, r.contains cp = true → Covers pl'._table cp v) := by
  rcases hgl : pl._table.getLast? with _ | last
  · have hnil := List.getLast?_eq_none_iff.mp hgl
    rw [extend_last_nil pl hnil r v] at h
    cases h
    constructor
    · intro cp w hc
      obtain ⟨rec, hm, hcc, hv⟩ := hc
      exact ⟨rec, List.mem_append_left _ hm, hcc, hv⟩
    · intro cp hcp
      refine ⟨PropertyRecord.from_range r v, List.mem_append_right _ (by simp), ?_, rfl⟩
      exact hcp
  · have htd := getLast?_decomp hgl
    have hlastmem : last ∈ pl._table := by
      rw [← htd]
      exact List.mem_append_right _ (by simp)
    have hlastwf : last.start ≤ last.end_inclusive :=
      ((tableInv_iff_pairwise pl._table).mp hinv).2 last hlastmem
    rw [extend_last_last pl last hgl r v] at h
    by_cases hgt : r.start > last.end_inclusive
    · rw [if_pos hgt] at h
      by_cases hm : r.start = last.end_inclusive + 1 ∧ v = last.value
      · -- merge case
        rw [if_pos hm] at h
        cases h
        constructor
        · intro cp w hc
          obtain ⟨rec, hmem, hcc, hv⟩ := hc
          rw [← htd] at hmem
          rcases List.mem_append.mp hmem with hd | hl
          · exact ⟨rec, List.mem_append_left _ hd, hcc, hv⟩
          · simp only [List.mem_singleton] at hl
            rw [hl] at hcc hv
            refine ⟨⟨last.start, r.end_inclusive, v⟩,
              List.mem_append_right _ (by simp), ?_, ?_⟩
            · rcases (PropertyRecord.contains_iff _ _).mp hcc with ⟨h1, h2⟩
              refine (PropertyRecord.contains_iff _ _).mpr ⟨?_, ?_⟩
              · show last.start ≤ cp
                exact h1
              · show cp ≤ r.end_inclusive
                omega
            · show v = w
              rw [hm.2]
              exact hv
        · intro cp hcp
          rcases (CodepointRange.contains_iff_bounds _ _).mp hcp with ⟨h1, h2⟩
          refine ⟨⟨last.start, r.end_inclusive, v⟩,
            List.mem_append_right _ (by simp), ?_, rfl⟩
          refine (PropertyRecord.contains_iff _ _).mpr ⟨?_, ?_⟩
          · show last.start ≤ cp
            omega
          · show cp ≤ r.end_inclusive
            exact h2
      · -- append case
        rw [if_neg hm] at h
        cases h
        constructor
        · intro cp w hc
          obtain ⟨rec, hmem, hcc, hv⟩ := hc
          exact ⟨rec, List.mem_append_left _ hmem, hcc, hv⟩
        · intro cp hcp
          refine ⟨PropertyRecord.from_range r v,
            List.mem_append_right _ (by simp), ?_, rfl⟩
          exact hcp
    · rw [if_neg hgt] at h
      cases h

/-- Any record produced by `parse_line` carries at least two fields. -/
theorem parse_line_record_fields {line : List Char} {r : CodepointRange}
    {fields : List (List Char)} (h : parse_line line = some (.record r fields)) :
    2 ≤ fields.length := by
  unfold parse_line at h
  dsimp only at h
  repeat' split at h
  all_goals
    first
    | (cases h
       rw [← List.length_map _ pyStrip]
       simp_all)
    | cases h

/-- Every pair buffered by `slurp_lines` came from a successfully parsed
record line. -/
theorem slurp_lines_mem {lines : List (List Char)}
    {recs : List (CodepointRange × List (List Char))}
    (h : slurp_lines lines = some recs) :
    ∀ p ∈ recs, ∃ line ∈ lines, parse_line line = some (.record p.1 p.2) := by
  induction lines generalizing recs with
  | nil =>
      cases h
      simp
  | cons line rest ih =>
      unfold slurp_lines at h
      rcases hpl : parse_line line with _ | pe
      · simp only [hpl] at h
        cases h
      · rcases pe with _ | ⟨r, f⟩
        · simp only [hpl] at h
          intro p hp
          obtain ⟨l2, hl2, hpl2⟩ := ih h p hp
          exact ⟨l2, List.mem_cons_of_mem _ hl2, hpl2⟩
        · simp only [hpl] at h
          rcases hsr : slurp_lines rest with _ | acc
          · rw [hsr] at h
            cases h
          · rw [hsr] at h
            simp only [Option.map_some'] at h
            cases h
            intro p hp
            rcases List.mem_cons.mp hp with rfl | hp2
            · exact ⟨line, List.mem_cons_self _ _, hpl⟩
            · obtain ⟨l2, hl2, hpl2⟩ := ih hsr p hp2
              exact ⟨l2, List.mem_cons_of_mem _ hl2, hpl2⟩

/-- Streaming a start-sorted, pairwise-strictly-separated buffer of
`(range, fields)` pairs into a valid table through `extend_last` succeeds and
covers each streamed range with its script field. -/
theorem fold_scripts_spec (items : List (CodepointRange × List (List Char))) :
    ∀ (tbl0 : PropertyLookup (List Char)),
    TableInv tbl0._table → AdjInv tbl0._table →
    (∀ p ∈ items, CODE_POINT_MIN ≤ p.1.start ∧ p.1.start ≤ p.1.end_inclusive ∧
      p.1.end_inclusive ≤ CODE_POINT_MAX) →
    (∀ p ∈ items, 2 ≤ p.2.length) →
    items.Pairwise (fun a b => a.1.end_inclusive < b.1.start) →
    (∀ p ∈ items, ∀ x ∈ tbl0._table.getLast?, x.end_inclusive < p.1.start) →
    ∃ tbl, items.foldlM
        (fun tbl rf =>
          match rf.2[SCRIPT]? with
          | none => none
          | some f => tbl.extend_last rf.1 f) tbl0 = some tbl ∧
      TableInv tbl._table ∧ AdjInv tbl._table ∧
      tbl._default = tbl0._default ∧ tbl._previous = tbl0._previous ∧
      (∀ (cp : Int) (w : List Char), Covers tbl0._table cp w → Covers tbl._table cp w) ∧
      (∀ p ∈ items, ∀ f, p.2[SCRIPT]? = some f →
        ∀ cp : Int, p.1.contains cp = true → Covers tbl._table cp f) := by
  induction items with
  | nil =>
      intro tbl0 h1 h2 _ _ _ _
      exact ⟨tbl0, rfl, h1, h2, rfl, rfl, fun _ _ h => h, by simp⟩
  | cons p rest ih =>
      intro tbl0 hinv hadj hwfs hlens hpw hall
      have hplen := hlens p (List.mem_cons_self _ _)
      have hS : SCRIPT < p.2.length := by unfold SCRIPT; omega
      have hf : p.2[SCRIPT]? = some p.2[SCRIPT] :=
        List.getElem?_eq_getElem hS
      obtain ⟨tbl1, hext⟩ := extend_last_succeeds tbl0 p.1 p.2[SCRIPT]
        (fun x hx => hall p (List.mem_cons_self _ _) x hx)
      have hwfp := hwfs p (List.mem_cons_self _ _)
      obtain ⟨hinv1, hadj1, hd1, hp1, hlast1⟩ :=
        extend_last_preserves hinv hadj hwfp.2.1 hext
      obtain ⟨hcovpres, hcovnew⟩ := extend_covers hinv hwfp.2.1 hext
      have hall1 : ∀ q ∈ rest, ∀ x ∈ tbl1._table.getLast?, x.end_inclusive < q.1.start := by
        intro q hq x hx
        have hxe : x.end_inclusive = p.1.end_inclusive := by
          rw [Option.mem_def] at hx
          rw [hx] at hlast1
          simp only [Option.map_some'] at hlast1
          exact Option.some.inj hlast1
        have hpe := (List.pairwise_cons.mp hpw).1 q hq
        omega
      obtain ⟨tbl, hfold, hinvf, hadjf, hdf, hpf, hpresf, hcovf⟩ :=
        ih tbl1 hinv1 hadj1 (fun q hq => hwfs q (List.mem_cons_of_mem _ hq))
          (fun q hq => hlens q (List.mem_cons_of_mem _ hq))
          (List.pairwise_cons.mp hpw).2 hall1
      refine ⟨tbl, ?_, hinvf, hadjf, hdf.trans hd1, hpf.trans hp1, ?_, ?_⟩
      · rw [List.foldlM_cons]
        show (match p.2[SCRIPT]? with
          | none => none
          | some f => tbl0.extend_last p.1 f) >>= _ = some tbl
        rw [hf]
        show tbl0.extend_last p.1 _ >>= _ = some tbl
        rw [hext]
        exact hfold
      · intro cp w hc
        exact hpresf cp w (hcovpres cp w hc)
      · intro q hq f2 hf2 cp hcp
        rcases List.mem_cons.mp hq with rfl | hq2
        · have hfeq : f2 = q.2[SCRIPT] := by
            rw [hf] at hf2
            exact (Option.some.inj hf2).symm
          subst hfeq
          exact hpresf cp _ (hcovnew cp hcp)
        · exact hcovf q hq2 f2 hf2 cp hcp

/--
C8: loading the script file first buffers every parsed `(range, fields)`
pair, sorts the buffer by range start, and only then streams it into the
script table; hence for any script file whose well-formed ranges are pairwise
disjoint — in whatever order they appear — the load succeeds and each covered
codepoint queries to that range's script field.
-/
theorem C8_parse_scripts (lines : List (List Char))
    (recs : List (CodepointRange × List (List Char)))
    (hsl : slurp_lines lines = some recs)
    (hwf : ∀ p ∈ recs, CODE_POINT_MIN ≤ p.1.start ∧ p.1.start ≤ p.1.end_inclusive ∧
      p.1.end_inclusive ≤ CODE_POINT_MAX)
    (hdisj : recs.Pairwise (fun a b =>
      a.1.end_inclusive < b.1.start ∨ b.1.end_inclusive < a.1.start)) :
    ∃ tbl, parse_scripts_lines lines = some tbl ∧
      ∀ p ∈ recs, ∀ cp : Int, p.1.contains cp = true →
        ∃ f, p.2[SCRIPT]? = some f ∧ ∃ tbl', tbl.getitem cp = .ok (f, tbl') := by
  have hperm := List.perm_insertionSort pairLe recs
  have hsorted : List.Sorted pairLe (List.insertionSort pairLe recs) :=
    List.sorted_insertionSort pairLe recs
  have hmemS : ∀ p, p ∈ List.insertionSort pairLe recs ↔ p ∈ recs :=
    fun p => hperm.mem_iff
  have hlens : ∀ p ∈ recs, 2 ≤ p.2.length := by
    intro p hp
    obtain ⟨line, _, hpl⟩ := slurp_lines_mem hsl p hp
    exact parse_line_record_fields hpl
  have hdisjS : (List.insertionSort pairLe recs).Pairwise (fun a b =>
      a.1.end_inclusive < b.1.start ∨ b.1.end_inclusive < a.1.start) :=
    (hperm.pairwise_iff (fun hab => hab.symm)).mpr hdisj
  have hstrict : (List.insertionSort pairLe recs).Pairwise
      (fun a b => a.1.end_inclusive < b.1.start) := by
    refine (hsorted.and hdisjS).imp_of_mem ?_
    intro a b ha hb hcomb
    obtain ⟨hle, hdab⟩ := hcomb
    have hs : a.1.start ≤ b.1.start := by
      have hle2 : toLex (a.1.start, toLex (a.1.end_inclusive, a.2)) ≤
          toLex (b.1.start, toLex (b.1.end_inclusive, b.2)) := hle
      rcases (Prod.Lex.le_iff _ _).mp hle2 with h1 | ⟨h1, _⟩
      · exact le_of_lt h1
      · exact le_of_eq h1
    rcases hdab with h | h
    · exact h
    · have hwfb := (hwf b ((hmemS b).mp hb)).2.1
      omega
  obtain ⟨tbl, hfold, hinvf, hadjf, hdf, hpf, _, hcovf⟩ :=
    fold_scripts_spec (List.insertionSort pairLe recs) _script
      tableInv_nil adjInv_nil
      (fun p hp => hwf p ((hmemS p).mp hp))
      (fun p hp => hlens p ((hmemS p).mp hp))
      hstrict
      (by
        intro p hp x hx
        rw [Option.mem_def] at hx
        rw [show _script._table.getLast? = none from rfl] at hx
        cases hx)
  refine ⟨tbl, ?_, ?_⟩
  · show (slurp_lines lines) >>= _ = some tbl
    rw [hsl]
    exact hfold
  · intro p hp cp hcp
    have hpS : p ∈ List.insertionSort pairLe recs := (hmemS p).mpr hp
    have hplen := hlens p hp
    have hS : SCRIPT < p.2.length := by unfold SCRIPT; omega
    have hf : p.2[SCRIPT]? = some p.2[SCRIPT] :=
      List.getElem?_eq_getElem hS
    have hcov := hcovf p hpS _ hf cp hcp
    rcases (CodepointRange.contains_iff_bounds _ _).mp hcp with ⟨hc1, hc2⟩
    have hwfp := hwf p hp
    obtain ⟨r, i, tbl', heq, ht, hd2, hp2, hok, hcont, hvs⟩ :=
      getitem_spec tbl cp hinvf (cacheOK_of_none (hpf.trans rfl)) (by omega) (by omega)
    obtain ⟨rec, hmem, hcc, hvv⟩ := hcov
    obtain ⟨j, hj, hjeq⟩ := List.mem_iff_getElem.mp hmem
    have hvs2 : ValueSpec tbl._table tbl._default cp p.2[SCRIPT] :=
      Or.inl ⟨j, hj, by rw [hjeq]; exact hcc, by rw [hjeq, hvv]⟩
    have hveq := hvs.unique hinvf hvs2
    rw [hveq] at heq
    exact ⟨_, hf, tbl', heq⟩

/-- Witness for C8: the Latin line precedes the Common line (unsorted by
codepoint), yet the load succeeds and both queries return the right
scripts. -/
theorem C8_parse_scripts_witness :
    ∃ tbl, parse_scripts_lines
        [("0061..007A ; Latin").data, ("0030..0039 ; Common").data] = some tbl ∧
      (∃ tbl', tbl.getitem 0x61 = .ok (("Latin").data, tbl')) ∧
      (∃ tbl', tbl.getitem 0x35 = .ok (("Common").data, tbl')) := by
  have hsl : slurp_lines [("0061..007A ; Latin").data, ("0030..0039 ; Common").data] =
      some [(⟨0x61, 0x7A⟩, [("0061..007A").data, ("Latin").data]),
        (⟨0x30, 0x39⟩, [("0030..0039").data, ("Common").data])] := by decide
  obtain ⟨tbl, hparse, hq⟩ := C8_parse_scripts _ _ hsl (by decide) (by decide)
  refine ⟨tbl, hparse, ?_, ?_⟩
  · obtain ⟨f, hf, tbl', heq⟩ := hq (⟨0x61, 0x7A⟩, [("0061..007A").data, ("Latin").data])
      (List.mem_cons_self _ _) 0x61 (by decide)
    have h2 : ([("0061..007A").data, ("Latin").data])[SCRIPT]? = some (("Latin").data) := by
      decide
    rw [h2] at hf
    rw [← Option.some.inj hf] at heq
    exact ⟨tbl', heq⟩
  · obtain ⟨f, hf, tbl', heq⟩ := hq (⟨0x30, 0x39⟩, [("0030..0039").data, ("Common").data])
      (List.mem_cons_of_mem _ (List.mem_cons_self _ _)) 0x35 (by decide)
    have h2 : ([("0030..0039").data, ("Common").data])[SCRIPT]? = some (("Common").data) := by
      decide
    rw [h2] at hf
    rw [← Option.some.inj hf] at heq
    exact ⟨tbl', heq⟩

end ParseUcd
